import Mathlib

/-!
Verification of the BigUint arbitrary-precision unsigned integer engine
(src/core/src/num/biguint.rs).

A `BigUint` is a `Vec<u64>` of limbs, least-significant limb first.  We embed
it as `List Nat` together with the well-formedness predicate `WFL` (every
stored limb is below the limb base `B = 2^64`); Rust's `u64` arithmetic is
modelled on `Nat` with explicit `% B` at the points where the source relies
on 64-bit truncation.  Loops of the source are translated to structural
recursions; the three nested `while` loops of `divmod`, the Euclid loop of
`gcd` and the digit loop of the `Display` impl can diverge, so they take an
explicit fuel parameter and return `none` when the fuel runs out.  Panics
(`Can't divide by 0`, `Number would be less than 0`, the `assert_eq!` in
subtraction) are modelled by the `Abort` error type.
-/

/-- The limb base: one limb of the Rust `BigUint` is a `u64`. -/
def B : Nat := 2 ^ 64

/-- Limb sequences, least significant limb first (`BigUint::value`). -/
abbrev Limbs := List Nat

/-- Well-formedness: every stored limb fits in a `u64`. -/
def WFL (v : Limbs) : Prop := ∀ x ∈ v, x < B

instance (v : Limbs) : Decidable (WFL v) := by
  unfold WFL; infer_instance

/-- Models `BigUint::get`: limb `i`, or 0 beyond the stored length. -/
def getL (v : Limbs) (i : Nat) : Nat := v.getD i 0

/-- Models `BigUint::set`: grow with zero limbs as needed, then assign. -/
def setL (v : Limbs) (i : Nat) (x : Nat) : Limbs :=
  (v ++ List.replicate (i + 1 - v.length) 0).set i x

/-- Models `BigUint::is_zero`: every stored limb is 0. -/
def isZeroL (v : Limbs) : Bool := v.all fun x => x == 0

/-- Models the descending comparison loop of `Ord for BigUint`: compare
limbs from index `n - 1` down to index 0, zero-padding past the stored
length. -/
def cmpFrom (a b : Limbs) : Nat → Ordering
  | 0 => .eq
  | n + 1 =>
    let v1 := getL a n
    let v2 := getL b n
    if v1 < v2 then .lt
    else if v2 < v1 then .gt
    else cmpFrom a b n

/-- Models `Ord::cmp for BigUint` (the loop starts at the larger stored
length). `PartialEq` is defined from this comparison in the source. -/
def cmpL (a b : Limbs) : Ordering := cmpFrom a b (max a.length b.length)

/-- The logical value of a limb sequence (little-endian base-`B`). -/
def valL : Limbs → Nat
  | [] => 0
  | x :: r => x + B * valL r

theorem B_pos : 0 < B := by norm_num [B]

theorem one_lt_B : 1 < B := by norm_num [B]

theorem getL_nil (i : Nat) : getL [] i = 0 := by
  simp [getL]

theorem getL_cons_zero (x : Nat) (r : Limbs) : getL (x :: r) 0 = x := rfl

theorem getL_cons_succ (x : Nat) (r : Limbs) (i : Nat) :
    getL (x :: r) (i + 1) = getL r i := rfl

theorem getL_eq_zero_of_le (v : Limbs) (i : Nat) (h : v.length ≤ i) :
    getL v i = 0 := by
  unfold getL
  exact List.getD_eq_default v 0 h

theorem getL_lt_B (v : Limbs) (i : Nat) (h : WFL v) : getL v i < B := by
  rcases Nat.lt_or_ge i v.length with hi | hi
  · have : v.getD i 0 ∈ v := by
      rw [List.getD_eq_getElem v 0 hi]
      exact v.getElem_mem hi
    exact h _ this
  · rw [getL_eq_zero_of_le v i hi]; exact B_pos

theorem WFL_nil : WFL [] := by intro x hx; cases hx

theorem WFL_cons {x : Nat} {r : Limbs} (hx : x < B) (hr : WFL r) :
    WFL (x :: r) := by
  intro y hy
  rcases List.mem_cons.mp hy with h | h
  · exact h ▸ hx
  · exact hr _ h

theorem WFL_of_cons {x : Nat} {r : Limbs} (h : WFL (x :: r)) :
    x < B ∧ WFL r :=
  ⟨h x (List.mem_cons_self x r), fun y hy => h y (List.mem_cons_of_mem x hy)⟩

theorem valL_lt_pow (v : Limbs) (h : WFL v) : valL v < B ^ v.length := by
  induction v with
  | nil => simp [valL]
  | cons x r ih =>
    obtain ⟨hx, hr⟩ := WFL_of_cons h
    have hrv := ih hr
    calc x + B * valL r < B + B * valL r := by omega
    _ = B * (valL r + 1) := by ring
    _ ≤ B * B ^ r.length := by
        have : valL r + 1 ≤ B ^ r.length := hrv
        exact Nat.mul_le_mul_left B this
    _ = B ^ (x :: r).length := by rw [List.length_cons]; ring

theorem valL_append (u w : Limbs) :
    valL (u ++ w) = valL u + B ^ u.length * valL w := by
  induction u with
  | nil => simp [valL]
  | cons x r ih =>
    simp only [List.cons_append, List.append_eq, valL, ih, List.length_cons]
    ring

theorem valL_replicate_zero (n : Nat) : valL (List.replicate n 0) = 0 := by
  induction n with
  | zero => rfl
  | succ k ih => simp [List.replicate_succ, valL, ih]

theorem valL_eq_zero_iff (v : Limbs) : valL v = 0 ↔ ∀ x ∈ v, x = 0 := by
  induction v with
  | nil => simp [valL]
  | cons x r ih =>
    simp only [valL, List.mem_cons]
    constructor
    · intro h
      have hx : x = 0 := by omega
      have hr : B * valL r = 0 := by omega
      have : valL r = 0 := by
        have := B_pos
        exact (Nat.mul_eq_zero.mp hr).resolve_left (by omega)
      intro y hy
      rcases hy with h' | h'
      · exact h' ▸ hx
      · exact (ih.mp this) y h'
    · intro h
      have hx : x = 0 := h x (Or.inl rfl)
      have hr : valL r = 0 := ih.mpr fun y hy => h y (Or.inr hy)
      simp [hx, hr]

theorem isZeroL_iff (v : Limbs) : isZeroL v = true ↔ valL v = 0 := by
  rw [valL_eq_zero_iff]
  simp [isZeroL, List.all_eq_true]

/-- The stored limb at index `i` is the `i`-th base-`B` digit of the
logical value: well-formed representations are unique up to trailing
zeros. -/
theorem getL_eq_digit (v : Limbs) (h : WFL v) (i : Nat) :
    getL v i = valL v / B ^ i % B := by
  induction v generalizing i with
  | nil => simp [getL, valL]
  | cons x r ih =>
    obtain ⟨hx, hr⟩ := WFL_of_cons h
    cases i with
    | zero =>
      simp only [getL_cons_zero, valL, pow_zero, Nat.div_one]
      rw [Nat.add_mul_mod_self_left, Nat.mod_eq_of_lt hx]
    | succ j =>
      rw [getL_cons_succ, ih hr j]
      have hdiv : (x + B * valL r) / B = valL r := by
        rw [Nat.add_mul_div_left _ _ B_pos, Nat.div_eq_of_lt hx, Nat.zero_add]
      have : (x + B * valL r) / B ^ (j + 1) = valL r / B ^ j := by
        rw [pow_succ, Nat.mul_comm (B ^ j) B, ← Nat.div_div_eq_div_mul, hdiv]
      rw [valL, this]

/-- Two well-formed sequences with the same logical value agree limbwise
(after logical zero padding). -/
theorem getL_congr {a a2 : Limbs} (ha : WFL a) (ha2 : WFL a2)
    (hv : valL a = valL a2) (i : Nat) : getL a i = getL a2 i := by
  rw [getL_eq_digit a ha i, getL_eq_digit a2 ha2 i, hv]

theorem valL_mod_pow_succ (x n : Nat) :
    x % B ^ (n + 1) = x % B ^ n + x / B ^ n % B * B ^ n := by
  rw [pow_succ, Nat.mod_mul]
  ring

theorem valL_mod_pow_of_ge (v : Limbs) (h : WFL v) (n : Nat)
    (hn : v.length ≤ n) : valL v % B ^ n = valL v :=
  Nat.mod_eq_of_lt (lt_of_lt_of_le (valL_lt_pow v h)
    (Nat.pow_le_pow_right B_pos hn))

theorem digit_dominates {x1 x2 d1 d2 X : Nat} (h1 : x1 < X) (hd : d1 < d2) :
    x1 + d1 * X < x2 + d2 * X := by
  have : x1 + d1 * X < (d1 + 1) * X := by nlinarith
  have h2 : (d1 + 1) * X ≤ d2 * X := Nat.mul_le_mul_right X hd
  omega

theorem cmpFrom_lt_iff (a b : Limbs) (ha : WFL a) (hb : WFL b) (n : Nat) :
    cmpFrom a b n = .lt ↔ valL a % B ^ n < valL b % B ^ n := by
  induction n with
  | zero => simp [cmpFrom, Nat.mod_one]
  | succ k ih =>
    have da := getL_eq_digit a ha k
    have db := getL_eq_digit b hb k
    have hma : valL a % B ^ k < B ^ k := Nat.mod_lt _ (Nat.pos_pow_of_pos k B_pos)
    have hmb : valL b % B ^ k < B ^ k := Nat.mod_lt _ (Nat.pos_pow_of_pos k B_pos)
    rw [valL_mod_pow_succ (valL a) k, valL_mod_pow_succ (valL b) k]
    simp only [cmpFrom, ← da, ← db]
    rcases Nat.lt_trichotomy (getL a k) (getL b k) with h | h | h
    · rw [if_pos h]
      have := @digit_dominates (valL a % B ^ k) (valL b % B ^ k) (getL a k) (getL b k) (B ^ k) hma h
      simp only [true_iff, this]
    · rw [if_neg (by omega), if_neg (by omega), ih, h]
      omega
    · rw [if_neg (by omega), if_pos h]
      have := @digit_dominates (valL b % B ^ k) (valL a % B ^ k) (getL b k) (getL a k) (B ^ k) hmb h
      simp only [reduceCtorEq, false_iff]
      omega

theorem cmpFrom_eq_iff (a b : Limbs) (ha : WFL a) (hb : WFL b) (n : Nat) :
    cmpFrom a b n = .eq ↔ valL a % B ^ n = valL b % B ^ n := by
  induction n with
  | zero => simp [cmpFrom, Nat.mod_one]
  | succ k ih =>
    have da := getL_eq_digit a ha k
    have db := getL_eq_digit b hb k
    have hma : valL a % B ^ k < B ^ k := Nat.mod_lt _ (Nat.pos_pow_of_pos k B_pos)
    have hmb : valL b % B ^ k < B ^ k := Nat.mod_lt _ (Nat.pos_pow_of_pos k B_pos)
    rw [valL_mod_pow_succ (valL a) k, valL_mod_pow_succ (valL b) k]
    simp only [cmpFrom, ← da, ← db]
    rcases Nat.lt_trichotomy (getL a k) (getL b k) with h | h | h
    · rw [if_pos h]
      have := @digit_dominates (valL a % B ^ k) (valL b % B ^ k) (getL a k) (getL b k) (B ^ k) hma h
      simp only [reduceCtorEq, false_iff]
      omega
    · rw [if_neg (by omega), if_neg (by omega), ih, h]
      omega
    · rw [if_neg (by omega), if_pos h]
      have := @digit_dominates (valL b % B ^ k) (valL a % B ^ k) (getL b k) (getL a k) (B ^ k) hmb h
      simp only [reduceCtorEq, false_iff]
      omega

theorem cmpL_lt_iff {a b : Limbs} (ha : WFL a) (hb : WFL b) :
    cmpL a b = .lt ↔ valL a < valL b := by
  unfold cmpL
  rw [cmpFrom_lt_iff a b ha hb,
    valL_mod_pow_of_ge a ha _ (le_max_left _ _),
    valL_mod_pow_of_ge b hb _ (le_max_right _ _)]

theorem cmpL_eq_iff {a b : Limbs} (ha : WFL a) (hb : WFL b) :
    cmpL a b = .eq ↔ valL a = valL b := by
  unfold cmpL
  rw [cmpFrom_eq_iff a b ha hb,
    valL_mod_pow_of_ge a ha _ (le_max_left _ _),
    valL_mod_pow_of_ge b hb _ (le_max_right _ _)]

theorem cmpL_gt_iff {a b : Limbs} (ha : WFL a) (hb : WFL b) :
    cmpL a b = .gt ↔ valL b < valL a := by
  rcases hord : cmpL a b with _ | _ | _
  · have := (cmpL_lt_iff ha hb).mp hord
    simp only [reduceCtorEq, false_iff]
    omega
  · have := (cmpL_eq_iff ha hb).mp hord
    simp only [reduceCtorEq, false_iff]
    omega
  · simp only [true_iff]
    have h1 : ¬ valL a < valL b := fun hc =>
      by rw [(cmpL_lt_iff ha hb).mpr hc] at hord; cases hord
    have h2 : ¬ valL a = valL b := fun hc =>
      by rw [(cmpL_eq_iff ha hb).mpr hc] at hord; cases hord
    omega

theorem cmpL_ne_lt_iff {a b : Limbs} (ha : WFL a) (hb : WFL b) :
    ¬ cmpL a b = .lt ↔ valL b ≤ valL a := by
  rw [cmpL_lt_iff ha hb]; omega

theorem cmpL_ne_gt_iff {a b : Limbs} (ha : WFL a) (hb : WFL b) :
    ¬ cmpL a b = .gt ↔ valL a ≤ valL b := by
  rw [cmpL_gt_iff ha hb]; omega

theorem setL_length (v : Limbs) (i : Nat) (x : Nat) :
    (setL v i x).length = max v.length (i + 1) := by
  simp [setL]
  omega

theorem getL_append_replicate (v : Limbs) (n i : Nat) :
    getL (v ++ List.replicate n 0) i = getL v i := by
  unfold getL
  rcases Nat.lt_or_ge i v.length with hi | hi
  · rw [List.getD_eq_getElem _ 0 hi,
      List.getD_eq_getElem _ 0 (by simp; omega)]
    simp [List.getElem_append_left hi]
  · rw [List.getD_eq_default v 0 hi]
    rcases Nat.lt_or_ge i (v.length + n) with h2 | h2
    · rw [List.getD_eq_getElem _ 0 (by simp; omega)]
      rw [List.getElem_append_right (by omega)]
      simp
    · rw [List.getD_eq_default _ 0 (by simp; omega)]

theorem valL_set (v : Limbs) (i x : Nat) (hi : i < v.length) :
    valL (v.set i x) + getL v i * B ^ i = valL v + x * B ^ i := by
  induction v generalizing i with
  | nil => simp at hi
  | cons y r ih =>
    cases i with
    | zero => simp [valL, getL]; ring
    | succ j =>
      have hj : j < r.length := by simpa using hi
      have := ih j hj
      simp only [List.set_cons_succ, valL, getL_cons_succ, pow_succ]
      nlinarith [this]

theorem valL_setL (v : Limbs) (i x : Nat) :
    valL (setL v i x) + getL v i * B ^ i = valL v + x * B ^ i := by
  unfold setL
  have hlen : i < (v ++ List.replicate (i + 1 - v.length) 0).length := by
    simp; omega
  have h := valL_set (v ++ List.replicate (i + 1 - v.length) 0) i x hlen
  rw [getL_append_replicate] at h
  rw [h, valL_append, valL_replicate_zero]
  ring

theorem WFL_setL {v : Limbs} {i x : Nat} (hv : WFL v) (hx : x < B) :
    WFL (setL v i x) := by
  intro y hy
  unfold setL at hy
  rcases (List.mem_or_eq_of_mem_set hy) with h | h
  · rcases List.mem_append.mp h with h' | h'
    · exact hv y h'
    · rw [List.eq_of_mem_replicate h']
      exact B_pos
  · exact h ▸ hx

theorem getL_setL_of_ge (v : Limbs) (i x j : Nat) (h : i < j) :
    getL (setL v i x) j = getL v j := by
  have hpad : getL (v ++ List.replicate (i + 1 - v.length) 0) j = getL v j :=
    getL_append_replicate v _ j
  unfold setL
  rcases Nat.lt_or_ge j (v ++ List.replicate (i + 1 - v.length) 0).length with hj | hj
  · unfold getL at hpad ⊢
    rw [List.getD_eq_getElem _ 0 (by simpa using hj),
      List.getElem_set_ne (by omega)]
    rw [List.getD_eq_getElem _ 0 hj] at hpad
    exact hpad
  · unfold getL at hpad ⊢
    rw [List.getD_eq_default _ 0 (by simpa using hj)]
    rw [List.getD_eq_default _ 0 hj] at hpad
    exact hpad

/-- Models the loop body accumulator of `BigUint::add_assign_internal`
(`self += (other * mul_digit) << (64 * shift)`): `n` iterations remain,
`i` is the current index, `c` the running carry.  Each step computes
`sum = self[i] + other[i - shift] * d + c` in a 128-bit intermediate,
stores the low 64 bits and carries the high 64 bits; a nonzero final
carry is pushed as a new limb. -/
def aaiGo (other : Limbs) (d shift : Nat) : Nat → Nat → Limbs → Nat → Limbs
  | 0, _, self, c => if c ≠ 0 then self ++ [c] else self
  | n + 1, i, self, c =>
    let a := getL self i
    let b := if shift ≤ i then getL other (i - shift) else 0
    let sum := a + b * d + c
    aaiGo other d shift n (i + 1) (setL self i (sum % B)) (sum / B)

/-- Models `BigUint::add_assign_internal`. -/
def addAssignInternal (self other : Limbs) (d shift : Nat) : Limbs :=
  aaiGo other d shift (max self.length (other.length + shift)) 0 self 0

/-- Models `Add`/`AddAssign for BigUint`: `add_assign_internal(other, 1, 0)`. -/
def addL (a b : Limbs) : Limbs := addAssignInternal a b 1 0

/-- The value of the window of `other * d` limbs consumed by `aaiGo`
starting at index `i` for `n` steps. -/
def otherWin (other : Limbs) (shift : Nat) : Nat → Nat → Nat
  | _, 0 => 0
  | i, n + 1 =>
    (if shift ≤ i then getL other (i - shift) else 0) * B ^ i +
      otherWin other shift (i + 1) n

theorem valL_drop (other : Limbs) (k : Nat) :
    valL (other.drop k) = getL other k + B * valL (other.drop (k + 1)) := by
  induction other generalizing k with
  | nil => simp [valL, getL]
  | cons x r ih =>
    cases k with
    | zero => simp [valL, getL]
    | succ j => simpa [getL_cons_succ] using ih j

theorem otherWin_ge_shift (other : Limbs) (shift : Nat) :
    ∀ n i, shift ≤ i → other.length ≤ i - shift + n →
      otherWin other shift i n = B ^ i * valL (other.drop (i - shift)) := by
  intro n
  induction n with
  | zero =>
    intro i hsi hlen
    have : other.drop (i - shift) = [] := List.drop_eq_nil_of_le hlen
    simp [otherWin, this, valL]
  | succ k ih =>
    intro i hsi hlen
    have h1 : shift ≤ i + 1 := by omega
    have h2 : other.length ≤ i + 1 - shift + k := by omega
    have hstep : i + 1 - shift = i - shift + 1 := by omega
    rw [otherWin, if_pos hsi, ih (i + 1) h1 h2, hstep,
      valL_drop other (i - shift)]
    ring_nf

theorem otherWin_full (other : Limbs) (shift : Nat) :
    ∀ i n, i ≤ shift → other.length + shift ≤ i + n →
      otherWin other shift i n = B ^ shift * valL other := by
  intro i n
  induction n generalizing i with
  | zero =>
    intro hi hlen
    have h0 : other.length = 0 := by omega
    have : other = [] := List.eq_nil_of_length_eq_zero h0
    subst this
    have hi' : i = shift := by omega
    subst hi'
    simp [otherWin, valL]
  | succ k ih =>
    intro hi hlen
    rcases Nat.eq_or_lt_of_le hi with he | hlt
    · subst he
      have := otherWin_ge_shift other i (k + 1) i (le_refl i) (by omega)
      simpa using this
    · rw [otherWin, if_neg (by omega)]
      have := ih (i + 1) hlt (by omega)
      simpa using this

theorem aaiGo_spec (other : Limbs) (d shift : Nat) (ho : WFL other) (hd : d < B) :
    ∀ n i self c L, WFL self → c < B → self.length = max L i → L ≤ i + n →
      valL (aaiGo other d shift n i self c) =
        valL self + c * B ^ i + d * otherWin other shift i n ∧
      WFL (aaiGo other d shift n i self c) := by
  intro n
  induction n with
  | zero =>
    intro i self c L hs hc hlen hL
    have hlen' : self.length = i := by omega
    by_cases hc0 : c = 0
    · subst hc0
      simp [aaiGo, otherWin, hs]
    · rw [aaiGo, if_pos hc0, otherWin]
      refine ⟨?_, ?_⟩
      · rw [valL_append, hlen']
        simp [valL]
        ring
      · intro y hy
        rcases List.mem_append.mp hy with h | h
        · exact hs y h
        · rw [List.mem_singleton.mp h]; exact hc
  | succ k ih =>
    intro i self c L hs hc hlen hL
    rw [aaiGo]
    set a := getL self i with ha
    set b := (if shift ≤ i then getL other (i - shift) else 0) with hb
    set sum := a + b * d + c with hsum
    have hab : a < B := getL_lt_B self i hs
    have hbb : b < B := by
      rw [hb]
      split
      · exact getL_lt_B other _ ho
      · exact B_pos
    have hsum_lt : sum < B * B := by
      obtain ⟨m, hm⟩ : ∃ m, B = m + 1 := ⟨B - 1, by have := B_pos; omega⟩
      have h1 : a ≤ m := by omega
      have h2 : b ≤ m := by omega
      have h3 : c ≤ m := by omega
      have h4 : d ≤ m := by omega
      have hbd : b * d ≤ m * m := Nat.mul_le_mul h2 h4
      rw [hsum, hm]
      nlinarith
    have hcarry : sum / B < B := by
      rw [Nat.div_lt_iff_lt_mul B_pos]
      omega
    have hmod : sum % B < B := Nat.mod_lt _ B_pos
    have hlen2 : (setL self i (sum % B)).length = max L (i + 1) := by
      rw [setL_length, hlen]
      omega
    obtain ⟨hv, hw⟩ := ih (i + 1) (setL self i (sum % B)) (sum / B) L
      (WFL_setL hs hmod) hcarry hlen2 (by omega)
    refine ⟨?_, hw⟩
    rw [hv]
    have hset := valL_setL self i (sum % B)
    have hdm : sum % B + B * (sum / B) = sum := Nat.mod_add_div sum B
    have key : valL (setL self i (sum % B)) + sum / B * B ^ (i + 1) + a * B ^ i =
        valL self + a * B ^ i + b * d * B ^ i + c * B ^ i := by
      have e1 : valL (setL self i (sum % B)) + sum / B * B ^ (i + 1) + a * B ^ i =
          (valL (setL self i (sum % B)) + a * B ^ i) + sum / B * B ^ (i + 1) := by
        ring
      rw [e1, hset]
      have e2 : valL self + sum % B * B ^ i + sum / B * B ^ (i + 1) =
          valL self + (sum % B + B * (sum / B)) * B ^ i := by
        rw [pow_succ]
        ring
      rw [e2, hdm, hsum]
      ring
    rw [otherWin, ← hb]
    have expand : valL self + c * B ^ i + d * (b * B ^ i + otherWin other shift (i + 1) k) =
        valL self + b * d * B ^ i + c * B ^ i + d * otherWin other shift (i + 1) k := by
      ring
    rw [expand]
    linarith

theorem addAssignInternal_spec (self other : Limbs) (d shift : Nat)
    (hs : WFL self) (ho : WFL other) (hd : d < B) :
    valL (addAssignInternal self other d shift) =
      valL self + d * B ^ shift * valL other ∧
    WFL (addAssignInternal self other d shift) := by
  unfold addAssignInternal
  obtain ⟨hv, hw⟩ := aaiGo_spec other d shift ho hd
    (max self.length (other.length + shift)) 0 self 0 self.length hs B_pos
    (by omega) (by omega)
  refine ⟨?_, hw⟩
  rw [hv, otherWin_full other shift 0 _ (Nat.zero_le _) (by omega)]
  ring

theorem addL_val (a b : Limbs) (ha : WFL a) (hb : WFL b) :
    valL (addL a b) = valL a + valL b := by
  have := (addAssignInternal_spec a b 1 0 ha hb one_lt_B).1
  simpa using this

theorem addL_WFL (a b : Limbs) (ha : WFL a) (hb : WFL b) : WFL (addL a b) :=
  (addAssignInternal_spec a b 1 0 ha hb one_lt_B).2

/-- Models the loop of `BigUint::mul_internal`: for each limb index `i` of
`other`, accumulate `orig * other[i] << (64 * i)` into `acc`. -/
def mulGo (orig other : Limbs) : Nat → Nat → Limbs → Limbs
  | 0, _, acc => acc
  | k + 1, i, acc =>
    mulGo orig other k (i + 1) (addAssignInternal acc orig (getL other i) i)

/-- Models `BigUint::mul_internal` (after `self.value.clear(); push(0)`,
the cleared accumulator is `[0]`). -/
def mulInternal (self other : Limbs) : Limbs :=
  mulGo self other other.length 0 [0]

/-- Models `Mul for BigUint` and `Mul for &BigUint`. -/
def mulL (a b : Limbs) : Limbs := mulInternal a b

theorem mulGo_spec (orig other : Limbs) (ho : WFL orig) (hot : WFL other) :
    ∀ k i acc, WFL acc →
      valL (mulGo orig other k i acc) =
        valL acc + valL orig * otherWin other 0 i k ∧
      WFL (mulGo orig other k i acc) := by
  intro k
  induction k with
  | zero => intro i acc hacc; simp [mulGo, otherWin, hacc]
  | succ m ih =>
    intro i acc hacc
    rw [mulGo]
    have hd : getL other i < B := getL_lt_B other i hot
    obtain ⟨hv1, hw1⟩ := addAssignInternal_spec acc orig (getL other i) i hacc ho hd
    obtain ⟨hv2, hw2⟩ := ih (i + 1) _ hw1
    refine ⟨?_, hw2⟩
    rw [hv2, hv1, otherWin, if_pos (Nat.zero_le i)]
    simp only [Nat.sub_zero]
    ring

theorem mulL_val (a b : Limbs) (ha : WFL a) (hb : WFL b) :
    valL (mulL a b) = valL a * valL b := by
  unfold mulL mulInternal
  obtain ⟨hv, _⟩ := mulGo_spec a b ha hb b.length 0 [0]
    (by intro y hy; rw [List.mem_singleton.mp hy]; exact B_pos)
  rw [hv, otherWin_full b 0 0 b.length (le_refl 0) (by omega)]
  simp [valL]

theorem mulL_WFL (a b : Limbs) (ha : WFL a) (hb : WFL b) : WFL (mulL a b) := by
  unfold mulL mulInternal
  exact (mulGo_spec a b ha hb b.length 0 [0]
    (by intro y hy; rw [List.mem_singleton.mp hy]; exact B_pos)).2

/-- Fatal errors (panics) of the source: division by zero
(message: Can't divide by 0), subtraction below zero (message: Number would
be less than 0), and the assert_eq of the subtraction loop. -/
inductive Abort where
  | divByZero
  | subNegative
  | subAssert
deriving DecidableEq

/-- Models the limb loop of `Sub for &BigUint`.  One step reads
`a = self.get(i)`, `b = other.get(i)` and tests `a >= b + carry`; in Rust
`b + carry` is a `u64` addition, so when `b = 2^64 - 1` and `carry = 1`
it wraps to 0 (release semantics; a debug build would abort here), which
is modelled by the explicit `% B`.  The borrow branch uses an exact
128-bit intermediate `a + 2^64 - b - carry`.  Returns the result limbs
and the final carry (checked by `assert_eq!(carry, 0)` in the source). -/
def subGo (a b : Limbs) : Nat → Nat → Nat → Limbs × Nat
  | 0, _, c => ([], c)
  | n + 1, i, c =>
    let x := getL a i
    let y := getL b i
    let w := (y + c) % B
    if w ≤ x then
      let r := subGo a b n (i + 1) 0
      ((x - w) :: r.1, r.2)
    else
      let r := subGo a b n (i + 1) 1
      ((x + B - w) :: r.1, r.2)

/-- Models `Sub for &BigUint` (also `Sub for BigUint`, which delegates):
panic when `self < other`, early return `0` when `self == other`,
otherwise the limb loop followed by `assert_eq!(carry, 0)`. -/
def subF (a b : Limbs) : Except Abort Limbs :=
  if cmpL a b = .lt then .error .subNegative
  else if cmpL a b = .eq then .ok [0]
  else
    let r := subGo a b (max a.length b.length) 0 0
    if r.2 = 0 then .ok r.1 else .error .subAssert

theorem subGo_WFL (a b : Limbs) (ha : WFL a) :
    ∀ n i c, c ≤ 1 → WFL (subGo a b n i c).1 := by
  intro n
  induction n with
  | zero => intro i c _; exact WFL_nil
  | succ k ih =>
    intro i c hc
    have hx : getL a i < B := getL_lt_B a i ha
    have hw : (getL b i + c) % B < B := Nat.mod_lt _ B_pos
    rw [subGo]
    split
    · exact WFL_cons (by omega) (ih (i + 1) 0 (by omega))
    · exact WFL_cons (by omega) (ih (i + 1) 1 (le_refl 1))

/-- The window of `n` limbs of `v` starting at index `i`, valued in local
(little-endian) coordinates. -/
def winVal (v : Limbs) : Nat → Nat → Nat
  | _, 0 => 0
  | i, n + 1 => getL v i + B * winVal v (i + 1) n

theorem winVal_full (v : Limbs) :
    ∀ n i, v.length ≤ i + n → winVal v i n = valL (v.drop i) := by
  intro n
  induction n with
  | zero =>
    intro i hlen
    rw [winVal, List.drop_eq_nil_of_le (by omega), valL]
  | succ k ih =>
    intro i hlen
    rw [winVal, ih (i + 1) (by omega), valL_drop v i]

theorem subGo_length (a b : Limbs) :
    ∀ n i c, (subGo a b n i c).1.length = n := by
  intro n
  induction n with
  | zero => intro i c; rfl
  | succ k ih =>
    intro i c
    rw [subGo]
    split
    · simpa using ih (i + 1) 0
    · simpa using ih (i + 1) 1

/-- When no limb of the subtrahend equals `2^64 - 1`, the `b + carry`
addition never wraps and the loop computes an exact borrow chain. -/
theorem subGo_exact (a b : Limbs) (hb : WFL b)
    (hbad : ∀ j, getL b j ≠ B - 1) :
    ∀ n i c, c ≤ 1 →
      (subGo a b n i c).2 ≤ 1 ∧
      valL (subGo a b n i c).1 + winVal b i n + c =
        winVal a i n + (subGo a b n i c).2 * B ^ n := by
  intro n
  induction n with
  | zero =>
    intro i c hc
    refine ⟨hc, ?_⟩
    simp [subGo, winVal, valL]
  | succ k ih =>
    intro i c hc
    have hy : getL b i < B := getL_lt_B b i hb
    have hyb : getL b i ≠ B - 1 := hbad i
    have hw : (getL b i + c) % B = getL b i + c := Nat.mod_eq_of_lt (by omega)
    rw [subGo]
    simp only [hw]
    split
    · rename_i hcase
      obtain ⟨ih1, ih2⟩ := ih (i + 1) 0 (by omega)
      refine ⟨ih1, ?_⟩
      rw [winVal, winVal, valL]
      have e : B * (valL (subGo a b k (i + 1) 0).1 + winVal b (i + 1) k + 0) =
          B * (winVal a (i + 1) k + (subGo a b k (i + 1) 0).2 * B ^ k) := by
        rw [ih2]
      rw [Nat.mul_add, Nat.mul_add, Nat.mul_add] at e
      have hpow : (subGo a b k (i + 1) 0).2 * B ^ (k + 1) =
          B * ((subGo a b k (i + 1) 0).2 * B ^ k) := by
        rw [pow_succ]
        ring
      rw [hpow]
      omega
    · rename_i hcase
      obtain ⟨ih1, ih2⟩ := ih (i + 1) 1 (le_refl 1)
      refine ⟨ih1, ?_⟩
      rw [winVal, winVal, valL]
      have e : B * (valL (subGo a b k (i + 1) 1).1 + winVal b (i + 1) k + 1) =
          B * (winVal a (i + 1) k + (subGo a b k (i + 1) 1).2 * B ^ k) := by
        rw [ih2]
      rw [Nat.mul_add, Nat.mul_add, Nat.mul_add] at e
      have hpow : (subGo a b k (i + 1) 1).2 * B ^ (k + 1) =
          B * ((subGo a b k (i + 1) 1).2 * B ^ k) := by
        rw [pow_succ]
        ring
      rw [hpow]
      omega

/-- Exact-subtraction correctness: when the subtrahend has no limb equal
to `2^64 - 1` (so the borrow chain never wraps) and `b <= a`, subtraction
succeeds, the final borrow is 0, and the result value is `a - b`. -/
theorem subF_ok (a b : Limbs) (ha : WFL a) (hb : WFL b)
    (hbad : ∀ j, getL b j ≠ B - 1) (hle : valL b ≤ valL a) :
    ∃ r, subF a b = .ok r ∧ WFL r ∧ valL r = valL a - valL b := by
  unfold subF
  rcases hord : cmpL a b with _ | _ | _
  · exact absurd ((cmpL_lt_iff ha hb).mp hord) (by omega)
  · refine ⟨[0], by simp, ?_, ?_⟩
    · intro y hy; rw [List.mem_singleton.mp hy]; exact B_pos
    · have := (cmpL_eq_iff ha hb).mp hord
      simp [valL]
      omega
  · simp only [reduceCtorEq, if_false]
    set N := max a.length b.length with hN
    obtain ⟨hc1, hc2⟩ := subGo_exact a b hb hbad N 0 0 (by omega)
    rw [winVal_full a N 0 (by omega), winVal_full b N 0 (by omega)] at hc2
    simp only [List.drop_zero] at hc2
    have hwf : WFL (subGo a b N 0 0).1 := subGo_WFL a b ha N 0 0 (by omega)
    have hlen : (subGo a b N 0 0).1.length = N := subGo_length a b N 0 0
    have hlt : valL (subGo a b N 0 0).1 < B ^ N := by
      have := valL_lt_pow _ hwf
      rwa [hlen] at this
    have hc0 : (subGo a b N 0 0).2 = 0 := by
      rcases Nat.lt_or_ge (subGo a b N 0 0).2 1 with h | h
      · omega
      · exfalso
        have h1 : (subGo a b N 0 0).2 = 1 := by omega
        rw [h1] at hc2
        omega
    rw [if_pos hc0]
    refine ⟨(subGo a b N 0 0).1, rfl, hwf, ?_⟩
    rw [hc0] at hc2
    omega

theorem subGo_congr (a a2 b b2 : Limbs) (hA : ∀ j, getL a j = getL a2 j)
    (hB : ∀ j, getL b j = getL b2 j) :
    ∀ n i c, subGo a b n i c = subGo a2 b2 n i c := by
  intro n
  induction n with
  | zero => intro i c; rfl
  | succ k ih =>
    intro i c
    rw [subGo, subGo, hA i, hB i, ih (i + 1) 0, ih (i + 1) 1]

theorem subGo_split (a b : Limbs) :
    ∀ n m i c, subGo a b (n + m) i c =
      ((subGo a b n i c).1 ++ (subGo a b m (i + n) (subGo a b n i c).2).1,
        (subGo a b m (i + n) (subGo a b n i c).2).2) := by
  intro n
  induction n with
  | zero =>
    intro m i c
    simp [subGo]
  | succ k ih =>
    intro m i c
    have harith : k + 1 + m = (k + m) + 1 := by omega
    rw [harith, subGo, subGo]
    split
    · rw [ih m (i + 1) 0]
      simp only [List.cons_append]
      have : i + (k + 1) = i + 1 + k := by omega
      rw [this]
    · rw [ih m (i + 1) 1]
      simp only [List.cons_append]
      have : i + (k + 1) = i + 1 + k := by omega
      rw [this]

theorem subGo_tail_zeros (a b : Limbs) :
    ∀ m i, (∀ j, i ≤ j → getL a j = 0 ∧ getL b j = 0) →
      subGo a b m i 0 = (List.replicate m 0, 0) ∧
      subGo a b m i 1 = (List.replicate m (B - 1), 1) := by
  intro m
  induction m with
  | zero => intro i _; exact ⟨rfl, rfl⟩
  | succ k ih =>
    intro i hz
    obtain ⟨hza, hzb⟩ := hz i (le_refl i)
    obtain ⟨ih0, ih1⟩ := ih (i + 1) fun j hj => hz j (by omega)
    constructor
    · rw [subGo, hza, hzb]
      simp only [Nat.zero_add, Nat.zero_mod, Nat.le_refl, if_pos, ih0]
      simp [List.replicate_succ]
    · rw [subGo, hza, hzb]
      have h1 : (0 + 1) % B = 1 := Nat.mod_eq_of_lt one_lt_B
      rw [h1, if_neg (by omega), ih1]
      simp [List.replicate_succ]

/-- Models the in-place bit loop of `BigUint::lshift` after the optional
push: the loop runs from the top limb down, so each limb reads the not
yet shifted limb below it; this is the equivalent limbwise map, carrying
the original lower limb `p` (`p = 0` below index 0).  `value[i] <<= 1`
truncates to 64 bits, then the top bit of the limb below is or-ed in. -/
def lshiftCore : Nat → Limbs → Limbs
  | _, [] => []
  | p, x :: r => (x * 2 % B + p / 2 ^ 63) :: lshiftCore x r

/-- The top stored limb `value[len - 1]` (default `d` for the empty
sequence, which cannot occur for a Rust `BigUint`). -/
def topLimbD : Limbs → Nat → Nat
  | [], d => d
  | x :: r, _ => topLimbD r x

/-- Models `BigUint::lshift`: push a zero limb when bit 62 of the top
limb is set (`value[len - 1] & (1 << 62) != 0`), then shift every limb
left by one. -/
def lshiftL (v : Limbs) : Limbs :=
  let w := if topLimbD v 0 / 2 ^ 62 % 2 = 1 then v ++ [0] else v
  lshiftCore 0 w

/-- Models `BigUint::rshift`: each limb is shifted right by one and
receives the low bit of the limb above it (logical zero above the top). -/
def rshiftCore : Limbs → Limbs
  | [] => []
  | x :: r => (x / 2 + getL r 0 % 2 * 2 ^ 63) :: rshiftCore r

/-- Models `BigUint::rshift`. -/
def rshiftL (v : Limbs) : Limbs := rshiftCore v

theorem lshiftCore_length (l : Limbs) :
    ∀ p, (lshiftCore p l).length = l.length := by
  induction l with
  | nil => intro p; rfl
  | cons x r ih =>
    intro p
    simp [lshiftCore, ih x]

theorem rshiftCore_length (l : Limbs) : (rshiftCore l).length = l.length := by
  induction l with
  | nil => rfl
  | cons x r ih => simp [rshiftCore, ih]

theorem two_mul_mod_B_even (x : Nat) : x * 2 % B % 2 = 0 := by
  have h2 : (2 : Nat) ∣ B := by norm_num [B]
  rw [Nat.mod_mod_of_dvd _ h2]
  omega

theorem lshiftCore_WFL : ∀ l : Limbs, WFL l → ∀ p, p < B →
    WFL (lshiftCore p l) := by
  intro l
  induction l with
  | nil => intro _ p _; exact WFL_nil
  | cons x r ih =>
    intro hl p hp
    obtain ⟨hx, hr⟩ := WFL_of_cons hl
    have hmod : x * 2 % B < B := Nat.mod_lt _ B_pos
    have heven : x * 2 % B % 2 = 0 := two_mul_mod_B_even x
    have hBeven : B % 2 = 0 := by norm_num [B]
    have hdiv : p / 2 ^ 63 ≤ 1 := by
      have hB2 : B = 2 ^ 63 * 2 := by norm_num [B]
      have : p / 2 ^ 63 < 2 := by
        rw [Nat.div_lt_iff_lt_mul (by norm_num)]
        omega
      omega
    exact WFL_cons (by omega) (ih hr x hx)


theorem topLimbD_cons (x : Nat) (r : Limbs) (d : Nat) :
    topLimbD (x :: r) d = topLimbD r x := rfl

theorem topLimbD_append_zero : ∀ v : Limbs, ∀ d, topLimbD (v ++ [0]) d = 0 := by
  intro v
  induction v with
  | nil => intro d; rfl
  | cons x r ih =>
    intro d
    rw [List.cons_append, topLimbD_cons, ih x]

theorem lshiftCore_val : ∀ l : Limbs, WFL l → ∀ p, p < B →
    valL (lshiftCore p l) + topLimbD l p / 2 ^ 63 * B ^ l.length =
      2 * valL l + p / 2 ^ 63 := by
  intro l
  induction l with
  | nil =>
    intro _ p _
    simp [lshiftCore, valL, topLimbD]
  | cons x r ih =>
    intro hl p hp
    obtain ⟨hx, hr⟩ := WFL_of_cons hl
    have IH := ih hr x hx
    rw [lshiftCore, valL, valL, topLimbD_cons, List.length_cons]
    have e : B * valL (lshiftCore x r) +
        B * (topLimbD r x / 2 ^ 63 * B ^ r.length) =
        B * (2 * valL r) + B * (x / 2 ^ 63) := by
      rw [← Nat.mul_add, IH, Nat.mul_add]
    have hB : B = 18446744073709551616 := by norm_num [B]
    have hkey : x * 2 % B + B * (x * 2 / B) = x * 2 := Nat.mod_add_div _ _
    have hdd : x * 2 / B = x / 2 ^ 63 := by
      rw [hB]
      omega
    rw [hdd] at hkey
    have hpow : B ^ (r.length + 1) = B ^ r.length * B := by
      rw [pow_succ]
    rw [hpow]
    linarith

theorem topLimbD_irrel : ∀ (l : Limbs) (d1 d2 : Nat), l ≠ [] →
    topLimbD l d1 = topLimbD l d2 := by
  intro l d1 d2 hne
  cases l with
  | nil => exact absurd rfl hne
  | cons x r => rfl

theorem lshiftCore_top_lt : ∀ l : Limbs, WFL l → topLimbD l 0 < 2 ^ 62 →
    ∀ p, p < B → ∀ d, d < 2 ^ 63 → topLimbD (lshiftCore p l) d < 2 ^ 63 := by
  intro l
  induction l with
  | nil =>
    intro _ _ p _ d hd
    simpa [lshiftCore, topLimbD] using hd
  | cons x r ih =>
    intro hl htop p hp d hd
    obtain ⟨hx, hr⟩ := WFL_of_cons hl
    rw [lshiftCore, topLimbD_cons]
    have hdiv : p / 2 ^ 63 ≤ 1 := by
      have hB2 : B = 2 ^ 63 * 2 := by norm_num [B]
      have : p / 2 ^ 63 < 2 := by
        rw [Nat.div_lt_iff_lt_mul (by norm_num)]
        omega
      omega
    cases r with
    | nil =>
      rw [topLimbD_cons] at htop
      simp only [topLimbD] at htop
      simp only [lshiftCore, topLimbD]
      have hxx : x * 2 < 2 ^ 63 := by omega
      have hm : x * 2 % B = x * 2 := Nat.mod_eq_of_lt (by
        have : (2:Nat) ^ 63 < B := by norm_num [B]
        omega)
      omega
    | cons y s =>
      rw [topLimbD_cons] at htop
      have htop' : topLimbD (y :: s) 0 < 2 ^ 62 := htop
      have hne : lshiftCore x (y :: s) ≠ [] := by
        rw [lshiftCore]
        simp
      rw [topLimbD_irrel _ _ 0 hne]
      exact ih hr htop' x hx 0 (by norm_num)

/-- Doubling lemma for `lshift`: when the top stored limb is below
`2^63` the shift loses no bit and the logical value doubles.  (When the
top limb has bit 63 set — and bit 62 clear — the source pushes no limb
and the top bit is silently dropped; see the counterexamples below.) -/
theorem lshiftL_val (v : Limbs) (hv : WFL v) (hsafe : topLimbD v 0 < 2 ^ 63) :
    valL (lshiftL v) = 2 * valL v := by
  unfold lshiftL
  split
  · rename_i hbit
    have hwf : WFL (v ++ [0]) := by
      intro y hy
      rcases List.mem_append.mp hy with h | h
      · exact hv y h
      · rw [List.mem_singleton.mp h]; exact B_pos
    have := lshiftCore_val (v ++ [0]) hwf 0 B_pos
    rw [topLimbD_append_zero v 0] at this
    simp only [Nat.zero_div, Nat.zero_mul, Nat.add_zero] at this
    rw [this, valL_append]
    simp [valL]
  · have := lshiftCore_val v hv 0 B_pos
    have hd : topLimbD v 0 / 2 ^ 63 = 0 := Nat.div_eq_of_lt hsafe
    rw [hd] at this
    simpa using this

theorem lshiftL_WFL (v : Limbs) (hv : WFL v) : WFL (lshiftL v) := by
  unfold lshiftL
  split
  · refine lshiftCore_WFL (v ++ [0]) ?_ 0 B_pos
    intro y hy
    rcases List.mem_append.mp hy with h | h
    · exact hv y h
    · rw [List.mem_singleton.mp h]; exact B_pos
  · exact lshiftCore_WFL v hv 0 B_pos

theorem lshiftL_safe (v : Limbs) (hv : WFL v) (hsafe : topLimbD v 0 < 2 ^ 63) :
    topLimbD (lshiftL v) 0 < 2 ^ 63 := by
  unfold lshiftL
  split
  · rename_i hbit
    have hwf : WFL (v ++ [0]) := by
      intro y hy
      rcases List.mem_append.mp hy with h | h
      · exact hv y h
      · rw [List.mem_singleton.mp h]; exact B_pos
    refine lshiftCore_top_lt (v ++ [0]) hwf ?_ 0 B_pos 0 (by norm_num)
    rw [topLimbD_append_zero v 0]
    norm_num
  · rename_i hbit
    have hb62 : topLimbD v 0 / 2 ^ 62 % 2 = 0 := by
      have : topLimbD v 0 / 2 ^ 62 % 2 < 2 := Nat.mod_lt _ (by norm_num)
      omega
    have hlt62 : topLimbD v 0 < 2 ^ 62 := by
      have h1 : topLimbD v 0 / 2 ^ 62 < 2 := by
        rw [Nat.div_lt_iff_lt_mul (by norm_num)]
        have : (2:Nat) ^ 62 * 2 = 2 ^ 63 := by norm_num
        omega
      have h0 : topLimbD v 0 / 2 ^ 62 = 0 := by omega
      omega
    exact lshiftCore_top_lt v hv hlt62 0 B_pos 0 (by norm_num)

theorem rshiftCore_val : ∀ l : Limbs, WFL l →
    2 * valL (rshiftCore l) + getL l 0 % 2 = valL l := by
  intro l
  induction l with
  | nil => intro _; simp [rshiftCore, valL, getL]
  | cons x r ih =>
    intro hl
    obtain ⟨hx, hr⟩ := WFL_of_cons hl
    have IH := ih hr
    rw [rshiftCore, valL, valL, getL_cons_zero]
    have e : B * (2 * valL (rshiftCore r)) + B * (getL r 0 % 2) =
        B * valL r := by
      rw [← Nat.mul_add, IH]
    have hB2 : 2 * 2 ^ 63 = B := by norm_num [B]
    have h2x : 2 * (x / 2) + x % 2 = x := by omega
    have e2 : 2 * (getL r 0 % 2 * 2 ^ 63) = B * (getL r 0 % 2) := by
      rw [← hB2]
      ring
    linarith

theorem rshiftL_val (v : Limbs) (hv : WFL v) :
    valL (rshiftL v) = valL v / 2 := by
  have h := rshiftCore_val v hv
  have hm : getL v 0 % 2 = valL v % 2 := by
    rcases v with _ | ⟨x, r⟩
    · simp [getL, valL]
    · rw [getL_cons_zero, valL]
      obtain ⟨k, hk⟩ : ∃ k, B = 2 * k := ⟨2 ^ 63, by norm_num [B]⟩
      rw [hk, Nat.mul_assoc]
      omega
  unfold rshiftL
  omega

theorem rshiftL_WFL (v : Limbs) (hv : WFL v) : WFL (rshiftL v) := by
  unfold rshiftL
  induction v with
  | nil => exact WFL_nil
  | cons x r ih =>
    obtain ⟨hx, hr⟩ := WFL_of_cons hv
    rw [rshiftCore]
    refine WFL_cons ?_ (ih hr)
    have h1 : x / 2 < 2 ^ 63 := by
      rw [Nat.div_lt_iff_lt_mul (by norm_num)]
      have : (2:Nat) ^ 63 * 2 = B := by norm_num [B]
      omega
    have h2 : getL r 0 % 2 ≤ 1 := by omega
    have hB2 : 2 ^ 63 * 2 = B := by norm_num [B]
    nlinarith

theorem rshiftCore_top_lt : ∀ v : Limbs, WFL v → ∀ d, d < 2 ^ 63 →
    topLimbD (rshiftCore v) d < 2 ^ 63 := by
  intro v
  induction v with
  | nil => intro _ d hd; simpa [rshiftCore, topLimbD] using hd
  | cons x r ih =>
    intro hv d hd
    obtain ⟨hx, hr⟩ := WFL_of_cons hv
    rw [rshiftCore, topLimbD_cons]
    have h1 : x / 2 < 2 ^ 63 := by
      rw [Nat.div_lt_iff_lt_mul (by norm_num)]
      have : (2:Nat) ^ 63 * 2 = B := by norm_num [B]
      omega
    cases r with
    | nil =>
      have hz : getL ([] : Limbs) 0 = 0 := getL_nil 0
      rw [rshiftCore]
      simp only [topLimbD, hz]
      omega
    | cons y s =>
      have hne : rshiftCore (y :: s) ≠ [] := by
        rw [rshiftCore]
        simp
      rw [topLimbD_irrel _ _ 0 hne]
      exact ih hr 0 (by norm_num)

theorem rshiftL_safe (v : Limbs) (hv : WFL v) :
    topLimbD (rshiftL v) 0 < 2 ^ 63 := by
  unfold rshiftL
  exact rshiftCore_top_lt v hv 0 (by norm_num)

/-- Loop state of `BigUint::divmod`: the remaining dividend, the running
quotient, `step_size` and `step_size_times_other`. -/
structure DivSt where
  rem : Limbs
  quot : Limbs
  step : Limbs
  sto : Limbs

/-- Models the doubling loop of `divmod`
(`while step_size_times_other < remaining_dividend`), with fuel. -/
def innerUpF : Nat → DivSt → Option DivSt
  | 0, _ => none
  | n + 1, s =>
    if cmpL s.sto s.rem = .lt then
      innerUpF n ⟨s.rem, s.quot, lshiftL s.step, lshiftL s.sto⟩
    else some s

/-- Models the halving loop of `divmod`
(`while step_size_times_other > remaining_dividend`), with fuel. -/
def innerDownF : Nat → DivSt → Option DivSt
  | 0, _ => none
  | n + 1, s =>
    if cmpL s.sto s.rem = .gt then
      innerDownF n ⟨s.rem, s.quot, rshiftL s.step, rshiftL s.sto⟩
    else some s

/-- Models the outer loop of `divmod`
(`while &remaining_dividend >= other`), with fuel. -/
def outerF (b : Limbs) : Nat → DivSt → Option (Except Abort (Limbs × Limbs))
  | 0, _ => none
  | n + 1, s =>
    if cmpL s.rem b = .lt then some (.ok (s.quot, s.rem))
    else
      match innerUpF (n + 1) s with
      | none => none
      | some s1 =>
        match innerDownF (n + 1) s1 with
        | none => none
        | some s2 =>
          match subF s2.rem s2.sto with
          | .error e => some (.error e)
          | .ok rem2 => outerF b n ⟨rem2, addL s2.quot s2.step, s2.step, s2.sto⟩

/-- Models `BigUint::divmod`: the divide-by-zero panic, the four fast
paths (divisor 1, zero dividend, dividend below / equal to the divisor,
all decided through `cmp`), then the doubling and halving long-division
loop starting from `step_size = 1`,
`step_size_times_other = &step_size * other`.  `none` means the fuel ran
out (the source loops forever). -/
def divmodF (fuel : Nat) (a b : Limbs) : Option (Except Abort (Limbs × Limbs)) :=
  if isZeroL b then some (.error .divByZero)
  else if cmpL b [1] = .eq then some (.ok (a, [0]))
  else if isZeroL a then some (.ok ([0], [0]))
  else if cmpL a b = .lt then some (.ok ([0], a))
  else if cmpL a b = .eq then some (.ok ([1], [0]))
  else outerF b fuel ⟨a, [0], [1], mulL [1] b⟩

/-- The recoverable errors of `BigUint::pow`: the strings
`Zero to the power of zero is undefined` and `Exponent too large`. -/
inductive PowErr where
  | zeroPowZero
  | expTooLarge
deriving DecidableEq

/-- Models the square-and-multiply loop of `BigUint::pow_internal`.  The
loop halves the `u64` exponent each iteration, so `e + 1` fuel (used by
`powInternal`) always suffices; see `powGo_fuel`. -/
def powGo : Nat → Limbs → Limbs → Nat → Limbs
  | 0, result, _, _ => result
  | f + 1, result, base, e =>
    if e = 0 then result
    else powGo f (if e % 2 = 1 then mulL result base else result)
      (mulL base base) (e / 2)

/-- Models `BigUint::pow_internal`. -/
def powInternal (a : Limbs) (e : Nat) : Limbs := powGo (e + 1) [1] a e

/-- The loop result does not depend on the fuel once the fuel exceeds
the exponent, so `powInternal`'s fuel choice is harmless. -/
theorem powGo_fuel : ∀ e f g r bb, e < f → e < g →
    powGo f r bb e = powGo g r bb e := by
  intro e
  induction e using Nat.strong_induction_on with
  | _ e ih =>
    intro f g r bb hf hg
    match f, g with
    | f' + 1, g' + 1 =>
      rw [powGo, powGo]
      by_cases he : e = 0
      · simp [he]
      · rw [if_neg he, if_neg he]
        have hlt : e / 2 < e := Nat.div_lt_self (Nat.pos_of_ne_zero he) one_lt_two
        exact ih (e / 2) hlt _ _ _ _ (by omega) (by omega)

/-- Models `BigUint::pow`: error when both arguments are zero, 1 for a
zero exponent, error when the exponent's stored length exceeds one limb,
otherwise binary exponentiation on `b.value[0]`. -/
def powF (a b : Limbs) : Except PowErr Limbs :=
  if isZeroL a && isZeroL b then .error .zeroPowZero
  else if isZeroL b then .ok [1]
  else if 1 < b.length then .error .expTooLarge
  else .ok (powInternal a (getL b 0))

/-- Models `BigUint::gcd` (`while b >= 1 { r = a % b; a = b; b = r }`),
with fuel; `%` is the remainder component of `divmod`. -/
def gcdF : Nat → Limbs → Limbs → Option (Except Abort Limbs)
  | 0, _, _ => none
  | n + 1, a, b =>
    if cmpL b [1] = .lt then some (.ok a)
    else
      match divmodF (n + 1) a b with
      | none => none
      | some (.error e) => some (.error e)
      | some (.ok qr) => gcdF n b qr.2

/-- Models `BigUint::lcm` (`a.clone() * b.clone() / BigUint::gcd(a, b)`;
`/` is the quotient component of `divmod`). -/
def lcmF (fuel : Nat) (a b : Limbs) : Option (Except Abort Limbs) :=
  match gcdF fuel a b with
  | none => none
  | some (.error e) => some (.error e)
  | some (.ok g) =>
    match divmodF fuel (mulL a b) g with
    | none => none
    | some (.error e) => some (.error e)
    | some (.ok qr) => some (.ok qr.1)

/-- Fuelled digit extraction for the canonical decimal digits of a `Nat`
(most significant digit first); `n + 1` fuel always suffices. -/
def decDigitsGo : Nat → Nat → List Nat
  | 0, _ => []
  | f + 1, n => if n < 10 then [n] else decDigitsGo f (n / 10) ++ [n % 10]

/-- The canonical decimal digits of a `Nat`, most significant first
(`decDigits 0 = [0]`). -/
def decDigits (n : Nat) : List Nat := decDigitsGo (n + 1) n

/-- Models the decimal rendering of Rust's `Display for u64` (used by
the one-limb branch of `Display for BigUint`): the canonical decimal
string. -/
def natDecimal (n : Nat) : String :=
  String.mk ((decDigits n).map fun d => Char.ofNat (48 + d))

/-- Evaluation of a digit string, most significant digit first. -/
def decValue (l : List Nat) : Nat := l.foldl (fun acc d => acc * 10 + d) 0

/-- Models the digit loop of the multi-limb branch of
`Display for BigUint`: repeatedly `divmod` by 10, prepending
`char::try_from(remainder.value[0] as u8 + 48)` to the output.  The
`% 256` models the `as u8` truncation. -/
def digitLoopF : Nat → Limbs → String → Option String
  | 0, _, _ => none
  | f + 1, num, acc =>
    if isZeroL num then some acc
    else
      match divmodF (f + 1) num [10] with
      | none => none
      | some (.error _) => none
      | some (.ok qr) =>
        digitLoopF f qr.1
          (String.mk (Char.ofNat ((getL qr.2 0 % 256 + 48) % 256) :: acc.data))

/-- Models `Display for BigUint`: `0` for a zero value, the native `u64`
rendering for a stored length of 1, otherwise the divmod-by-10 digit
loop. -/
def formatF (fuel : Nat) (v : Limbs) : Option String :=
  if isZeroL v then some "0"
  else if v.length = 1 then some (natDecimal (getL v 0))
  else digitLoopF fuel v ""

theorem cmpL_congr {a a2 b b2 : Limbs} (ha : WFL a) (ha2 : WFL a2)
    (hb : WFL b) (hb2 : WFL b2) (hva : valL a = valL a2)
    (hvb : valL b = valL b2) : cmpL a2 b2 = cmpL a b := by
  rcases h : cmpL a b with _ | _ | _
  · exact (cmpL_lt_iff ha2 hb2).mpr (hva ▸ hvb ▸ (cmpL_lt_iff ha hb).mp h)
  · exact (cmpL_eq_iff ha2 hb2).mpr (hva ▸ hvb ▸ (cmpL_eq_iff ha hb).mp h)
  · exact (cmpL_gt_iff ha2 hb2).mpr (hva ▸ hvb ▸ (cmpL_gt_iff ha hb).mp h)

theorem isZeroL_congr {a a2 : Limbs} (hva : valL a = valL a2) :
    isZeroL a2 = isZeroL a := by
  have h1 : (isZeroL a2 = true) ↔ (isZeroL a = true) := by
    rw [isZeroL_iff, isZeroL_iff, hva]
  cases h2 : isZeroL a2 <;> cases h3 : isZeroL a
  · rfl
  · rw [h2, h3] at h1
    simp at h1
  · rw [h2, h3] at h1
    simp at h1
  · rfl

theorem subGo_carry (a b : Limbs) :
    ∀ n i c, c ≤ 1 → (subGo a b n i c).2 ≤ 1 := by
  intro n
  induction n with
  | zero => intro i c hc; exact hc
  | succ k ih =>
    intro i c hc
    rw [subGo]
    split
    · exact ih (i + 1) 0 (by omega)
    · exact ih (i + 1) 1 (le_refl 1)

/-- Result-equivalence for the fallible subtraction: same panic, or
results equal under the source's own comparison-based equality. -/
def subEquiv : Except Abort Limbs → Except Abort Limbs → Prop
  | .error e1, .error e2 => e1 = e2
  | .ok x, .ok y => cmpL x y = .eq
  | _, _ => False

/-- Padding invariance of subtraction: operands with equal logical
values (possibly of different stored lengths) produce equivalent
results, error or not. -/
theorem subF_congr {a a2 b b2 : Limbs} (ha : WFL a) (ha2 : WFL a2)
    (hb : WFL b) (hb2 : WFL b2) (hva : valL a = valL a2)
    (hvb : valL b = valL b2) : subEquiv (subF a2 b2) (subF a b) := by
  have hga := getL_congr ha ha2 hva
  have hgb := getL_congr hb hb2 hvb
  have hcmp : cmpL a2 b2 = cmpL a b := cmpL_congr ha ha2 hb hb2 hva hvb
  unfold subF
  rw [hcmp]
  rcases h : cmpL a b with _ | _ | _
  · simp only [if_pos rfl]
    rfl
  · simp only [reduceCtorEq, if_false, if_pos rfl]
    show cmpL [0] [0] = .eq
    rfl
  · simp only [reduceCtorEq, if_false]
    set N := max a.length b.length with hN
    set N2 := max a2.length b2.length with hN2
    set M := max N N2 with hM
    have hzeroN : ∀ j, N ≤ j → getL a j = 0 ∧ getL b j = 0 := by
      intro j hj
      constructor
      · exact getL_eq_zero_of_le a j (by omega)
      · exact getL_eq_zero_of_le b j (by omega)
    have hzeroN2 : ∀ j, N2 ≤ j → getL a j = 0 ∧ getL b j = 0 := by
      intro j hj
      constructor
      · rw [hga j]
        exact getL_eq_zero_of_le a2 j (by omega)
      · rw [hgb j]
        exact getL_eq_zero_of_le b2 j (by omega)
    have hr2eq : subGo a2 b2 N2 0 0 = subGo a b N2 0 0 :=
      (subGo_congr a a2 b b2 hga hgb N2 0 0).symm
    have hcarN : (subGo a b N 0 0).2 ≤ 1 := subGo_carry a b N 0 0 (by omega)
    have hcarN2 : (subGo a b N2 0 0).2 ≤ 1 := subGo_carry a b N2 0 0 (by omega)
    have hsplitN := subGo_split a b N (M - N) 0 0
    have hsplitN2 := subGo_split a b N2 (M - N2) 0 0
    rw [show N + (M - N) = M by omega] at hsplitN
    rw [show N2 + (M - N2) = M by omega] at hsplitN2
    simp only [Nat.zero_add] at hsplitN hsplitN2
    have htzN := subGo_tail_zeros a b (M - N) N hzeroN
    have htzN2 := subGo_tail_zeros a b (M - N2) N2 hzeroN2
    rw [hr2eq]
    by_cases hc : (subGo a b N 0 0).2 = 0
    · have hM1 : subGo a b M 0 0 =
          ((subGo a b N 0 0).1 ++ List.replicate (M - N) 0, 0) := by
        rw [hsplitN, hc, htzN.1]
      have hcN2 : (subGo a b N2 0 0).2 = 0 := by
        by_cases hc2 : (subGo a b N2 0 0).2 = 0
        · exact hc2
        · exfalso
          have hone : (subGo a b N2 0 0).2 = 1 := by omega
          rw [hsplitN2, hone, htzN2.2] at hM1
          have := congrArg Prod.snd hM1
          simp at this
      have hM2 : subGo a b M 0 0 =
          ((subGo a b N2 0 0).1 ++ List.replicate (M - N2) 0, 0) := by
        rw [hsplitN2, hcN2, htzN2.1]
      rw [if_pos hc, if_pos hcN2]
      show cmpL (subGo a b N2 0 0).1 (subGo a b N 0 0).1 = .eq
      have hlists : (subGo a b N 0 0).1 ++ List.replicate (M - N) 0 =
          (subGo a b N2 0 0).1 ++ List.replicate (M - N2) 0 := by
        have := hM1.symm.trans hM2
        exact congrArg Prod.fst this
      have hWN : WFL (subGo a b N 0 0).1 := subGo_WFL a b ha N 0 0 (by omega)
      have hWN2 : WFL (subGo a b N2 0 0).1 := subGo_WFL a b ha N2 0 0 (by omega)
      have hvals : valL (subGo a b N 0 0).1 = valL (subGo a b N2 0 0).1 := by
        have h1 := valL_append (subGo a b N 0 0).1 (List.replicate (M - N) 0)
        have h2 := valL_append (subGo a b N2 0 0).1 (List.replicate (M - N2) 0)
        rw [hlists] at h1
        rw [h1, valL_replicate_zero, valL_replicate_zero] at h2
        omega
      exact (cmpL_eq_iff hWN2 hWN).mpr hvals.symm
    · have hone : (subGo a b N 0 0).2 = 1 := by omega
      have hM1 : subGo a b M 0 0 =
          ((subGo a b N 0 0).1 ++ List.replicate (M - N) (B - 1), 1) := by
        rw [hsplitN, hone, htzN.2]
      have hcN2 : ¬ (subGo a b N2 0 0).2 = 0 := by
        intro hc2
        rw [hsplitN2, hc2, htzN2.1] at hM1
        have := congrArg Prod.snd hM1
        simp at this
      rw [if_neg hc, if_neg hcN2]
      rfl

theorem innerUpF_sto_zero : ∀ (n : Nat) (rem q st : Limbs),
    cmpL [0] rem = .lt → innerUpF n ⟨rem, q, st, [0]⟩ = none := by
  intro n
  induction n with
  | zero => intro rem q st _; rfl
  | succ k ih =>
    intro rem q st hlt
    rw [innerUpF, if_pos hlt]
    show innerUpF k ⟨rem, q, lshiftL st, lshiftL [0]⟩ = none
    rw [show lshiftL [0] = [0] from rfl]
    exact ih rem q (lshiftL st) hlt

/-- The divmod loop for dividend `2^63 + 1` and divisor `2^63` never
returns: the first left shift of `step_size_times_other = [2^63]` drops
the top bit (bit 62 of the top limb is clear, so no limb is pushed),
leaving the product at 0, and the doubling loop condition
`step_size_times_other < remaining_dividend` stays true forever. -/
theorem claim2_divmod_diverges (fuel : Nat) :
    divmodF fuel [9223372036854775809] [9223372036854775808] = none := by
  have h0 : divmodF fuel [9223372036854775809] [9223372036854775808] =
      outerF [9223372036854775808] fuel
        ⟨[9223372036854775809], [0], [1], [9223372036854775808]⟩ := rfl
  rw [h0]
  cases fuel with
  | zero => rfl
  | succ n =>
    rw [outerF]
    rw [if_neg (by decide)]
    have h1 : innerUpF (n + 1)
        ⟨[9223372036854775809], [0], [1], [9223372036854775808]⟩ =
        innerUpF n ⟨[9223372036854775809], [0], [2], [0]⟩ := by
      rw [innerUpF, if_pos (by decide)]
      rfl
    rw [h1, innerUpF_sto_zero n _ _ _ (by decide)]

/-- The Euclid loop of `gcd` inherits the divmod divergence: for
`a = 2^64` (limbs `[0, 1]`) and `b = 2^63`, the first remainder
computation `a % b` never returns. -/
theorem claim7_gcd_diverges (fuel : Nat) :
    gcdF fuel [0, 1] [9223372036854775808] = none := by
  cases fuel with
  | zero => rfl
  | succ n =>
    rw [gcdF]
    rw [if_neg (by decide)]
    have h0 : divmodF (n + 1) [0, 1] [9223372036854775808] =
        outerF [9223372036854775808] (n + 1)
          ⟨[0, 1], [0], [1], [9223372036854775808]⟩ := rfl
    have h2 : outerF [9223372036854775808] (n + 1)
        ⟨[0, 1], [0], [1], [9223372036854775808]⟩ = none := by
      rw [outerF]
      rw [if_neg (by decide)]
      have h1 : innerUpF (n + 1)
          ⟨[0, 1], [0], [1], [9223372036854775808]⟩ =
          innerUpF n ⟨[0, 1], [0], [2], [0]⟩ := by
        rw [innerUpF, if_pos (by decide)]
        rfl
      rw [h1, innerUpF_sto_zero n _ _ _ (by decide)]
    rw [h0, h2]

set_option maxRecDepth 40000 in
/-- Evaluation of `divmod` at dividend `2^127 + 2` (limbs
`[2, 2^63]`) and divisor `2^127 + 1` (limbs `[1, 2^63]`): the loop
terminates but returns quotient `2^127` and remainder `2` (the true
quotient is 1 with remainder 1), so `quotient * divisor + remainder`
is not the dividend. -/
theorem claim1_divmod_law_fails :
    divmodF 200 [2, 9223372036854775808] [1, 9223372036854775808] =
      some (.ok ([0, 9223372036854775808, 0], [2, 0, 0])) ∧
    valL [0, 9223372036854775808, 0] * valL [1, 9223372036854775808] +
      valL [2, 0, 0] ≠ valL [2, 9223372036854775808] := by
  constructor
  · rfl
  · decide

/-- Evaluation of `lshift` at the single limb `2^63`: bit 62 is clear so
no limb is pushed, and the shift drops the value to 0 instead of
doubling it to `2^64`. -/
theorem claim3_lshift_loses_top_bit :
    lshiftL [9223372036854775808] = [0] ∧
    valL (lshiftL [9223372036854775808]) ≠ 2 * valL [9223372036854775808] := by
  constructor
  · rfl
  · decide

/-- The stored-length check of `pow` rejects a padded one-limb exponent:
`[5, 0]` and `[5]` are equal under the source's own comparison, yet
`pow(2, [5]) = Ok(32)` while `pow(2, [5, 0])` is the
`Exponent too large` error. -/
theorem claim4_pad_counterexample :
    cmpL [5] [5, 0] = .eq ∧ powF [2] [5] ≠ powF [2] [5, 0] := by
  refine ⟨rfl, ?_⟩
  intro h
  rw [show powF [2] [5] = .ok [32] from rfl,
    show powF [2] [5, 0] = .error .expTooLarge from rfl] at h
  exact Except.noConfusion h

/-- Padding invariance does hold for comparison, the zero test,
addition, subtraction and multiplication: replacing an operand by any
well-formed sequence with the same logical value (equivalently, one that
agrees after zero padding) gives the same comparison result, the same
zero test, and results equal under the source's comparison-based
equality (for subtraction: the same panic or equal results). -/
theorem claim4_pad_equiv_amended (a a2 b : Limbs) (ha : WFL a)
    (ha2 : WFL a2) (hb : WFL b) (hv : valL a = valL a2) :
    cmpL a2 b = cmpL a b ∧ cmpL b a2 = cmpL b a ∧
    isZeroL a2 = isZeroL a ∧
    cmpL (addL a2 b) (addL a b) = .eq ∧
    cmpL (addL b a2) (addL b a) = .eq ∧
    cmpL (mulL a2 b) (mulL a b) = .eq ∧
    cmpL (mulL b a2) (mulL b a) = .eq ∧
    subEquiv (subF a2 b) (subF a b) ∧
    subEquiv (subF b a2) (subF b a) := by
  refine ⟨cmpL_congr ha ha2 hb hb hv rfl, cmpL_congr hb hb ha ha2 rfl hv,
    isZeroL_congr hv, ?_, ?_, ?_, ?_,
    subF_congr ha ha2 hb hb hv rfl, subF_congr hb hb ha ha2 rfl hv⟩
  · refine (cmpL_eq_iff (addL_WFL a2 b ha2 hb) (addL_WFL a b ha hb)).mpr ?_
    rw [addL_val a2 b ha2 hb, addL_val a b ha hb, hv]
  · refine (cmpL_eq_iff (addL_WFL b a2 hb ha2) (addL_WFL b a hb ha)).mpr ?_
    rw [addL_val b a2 hb ha2, addL_val b a hb ha, hv]
  · refine (cmpL_eq_iff (mulL_WFL a2 b ha2 hb) (mulL_WFL a b ha hb)).mpr ?_
    rw [mulL_val a2 b ha2 hb, mulL_val a b ha hb, hv]
  · refine (cmpL_eq_iff (mulL_WFL b a2 hb ha2) (mulL_WFL b a hb ha)).mpr ?_
    rw [mulL_val b a2 hb ha2, mulL_val b a hb ha, hv]

theorem claim4_pad_equiv_witness :
    WFL [3] ∧ WFL [3, 0] ∧ WFL [7] ∧ valL [3] = valL [3, 0] ∧
    (cmpL [3, 0] [7] = cmpL [3] [7] ∧ cmpL [7] [3, 0] = cmpL [7] [3] ∧
      isZeroL [3, 0] = isZeroL [3] ∧
      cmpL (addL [3, 0] [7]) (addL [3] [7]) = .eq ∧
      cmpL (addL [7] [3, 0]) (addL [7] [3]) = .eq ∧
      cmpL (mulL [3, 0] [7]) (mulL [3] [7]) = .eq ∧
      cmpL (mulL [7] [3, 0]) (mulL [7] [3]) = .eq ∧
      subEquiv (subF [3, 0] [7]) (subF [3] [7]) ∧
      subEquiv (subF [7] [3, 0]) (subF [7] [3])) :=
  ⟨by decide, by decide, by decide, by decide,
    claim4_pad_equiv_amended [3] [3, 0] [7] (by decide) (by decide)
      (by decide) (by decide)⟩

/-- The exponent-size error is keyed to the stored length, not the
logical value: `[5, 0]` is logically 5 (which fits a single limb) and is
nonzero, yet `pow(2, [5, 0])` signals `Exponent too large`. -/
theorem claim5_pow_counterexample :
    powF [2] [5, 0] = .error .expTooLarge ∧
    isZeroL [5, 0] = false ∧
    valL [5, 0] ≤ 2 ^ 64 - 1 := by
  exact ⟨rfl, rfl, by decide⟩

/-- Corrected error contract of `pow`: the zero-to-the-zero error holds
exactly when both arguments are logically zero, a zero exponent with a
nonzero base yields 1, and the `Exponent too large` error holds exactly
when the exponent is nonzero and its stored limb count exceeds 1. -/
theorem claim5_pow_spec (a b : Limbs) :
    (powF a b = .error .zeroPowZero ↔
      (isZeroL a = true ∧ isZeroL b = true)) ∧
    ((isZeroL a = false ∧ isZeroL b = true) → powF a b = .ok [1]) ∧
    (powF a b = .error .expTooLarge ↔
      (isZeroL b = false ∧ 1 < b.length)) := by
  unfold powF
  rcases h1 : isZeroL a <;> rcases h2 : isZeroL b <;>
    by_cases hlen : 1 < b.length <;>
    simp [h1, h2, hlen]

/-- Evaluation of subtraction at `a = 2^128` (limbs `[0, 0, 1]`) and
`b = 2^128 - 2^64 + 1` (limbs `[1, 2^64 - 1]`): here `a > b`, but at
limb 1 the borrow makes `b + carry` overflow the `u64`; the borrow is
dropped and the returned value `2^128 + 2^64 - 1` does not satisfy
`r + b == a` (a debug build would abort on the same input instead). -/
theorem claim6_sub_overflow :
    subF [0, 0, 1] [1, 18446744073709551615] =
      .ok [18446744073709551615, 0, 1] ∧
    valL [1, 18446744073709551615] ≤ valL [0, 0, 1] ∧
    valL [18446744073709551615, 0, 1] + valL [1, 18446744073709551615] ≠
      valL [0, 0, 1] := by
  exact ⟨rfl, by decide, by decide⟩

theorem valL_zero_singleton : valL [0] = 0 := by simp [valL]

theorem valL_one_singleton : valL [1] = 1 := by simp [valL]

/-- Commutativity of addition and multiplication, associativity of
addition, and the identities `a + 0 == a` and `a * 1 == a`, all under
the source's comparison-based equality. -/
theorem claim8_ring_identities (a b c : Limbs) (ha : WFL a) (hb : WFL b)
    (hc : WFL c) :
    cmpL (addL a b) (addL b a) = .eq ∧
    cmpL (mulL a b) (mulL b a) = .eq ∧
    cmpL (addL (addL a b) c) (addL a (addL b c)) = .eq ∧
    cmpL (addL a [0]) a = .eq ∧
    cmpL (mulL a [1]) a = .eq := by
  have h0 : WFL [0] := by decide
  have h1 : WFL [1] := by decide
  refine ⟨?_, ?_, ?_, ?_, ?_⟩
  · refine (cmpL_eq_iff (addL_WFL a b ha hb) (addL_WFL b a hb ha)).mpr ?_
    rw [addL_val a b ha hb, addL_val b a hb ha]
    ring
  · refine (cmpL_eq_iff (mulL_WFL a b ha hb) (mulL_WFL b a hb ha)).mpr ?_
    rw [mulL_val a b ha hb, mulL_val b a hb ha]
    ring
  · refine (cmpL_eq_iff (addL_WFL _ c (addL_WFL a b ha hb) hc)
      (addL_WFL a _ ha (addL_WFL b c hb hc))).mpr ?_
    rw [addL_val _ c (addL_WFL a b ha hb) hc, addL_val a b ha hb,
      addL_val a _ ha (addL_WFL b c hb hc), addL_val b c hb hc]
    ring
  · refine (cmpL_eq_iff (addL_WFL a [0] ha h0) ha).mpr ?_
    rw [addL_val a [0] ha h0, valL_zero_singleton]
    ring
  · refine (cmpL_eq_iff (mulL_WFL a [1] ha h1) ha).mpr ?_
    rw [mulL_val a [1] ha h1, valL_one_singleton]
    ring

theorem claim8_ring_identities_witness :
    WFL [2] ∧ WFL [3] ∧ WFL [5] ∧
    (cmpL (addL [2] [3]) (addL [3] [2]) = .eq ∧
      cmpL (mulL [2] [3]) (mulL [3] [2]) = .eq ∧
      cmpL (addL (addL [2] [3]) [5]) (addL [2] (addL [3] [5])) = .eq ∧
      cmpL (addL [2] [0]) [2] = .eq ∧
      cmpL (mulL [2] [1]) [2] = .eq) :=
  ⟨by decide, by decide, by decide,
    claim8_ring_identities [2] [3] [5] (by decide) (by decide) (by decide)⟩

/-- Claim 10: `lcm(0, 0)` reaches the division-by-zero panic: `gcd(0, 0)` exits
its loop immediately and returns 0, and `divmod(0 * 0, 0)` aborts with
the divide-by-zero error; the public signature of `lcm` returns a plain
`BigUint`, so the abort is not a recoverable result. -/
theorem claim10_lcm_zero_zero (fuel : Nat) :
    lcmF (fuel + 1) [0] [0] = some (.error .divByZero) := rfl

theorem five_pow_digit_ne (r m : Nat) :
    5 * 2 ^ r / 2 ^ m % 2 ^ 64 ≠ 2 ^ 64 - 1 := by
  rcases le_or_lt m r with h | h
  · have he : 5 * 2 ^ r = 5 * 2 ^ (r - m) * 2 ^ m := by
      rw [Nat.mul_assoc, ← pow_add]
      congr 2
      omega
    rw [he, Nat.mul_div_cancel _ (Nat.pos_pow_of_pos m (by norm_num))]
    rcases Nat.eq_zero_or_pos (r - m) with h0 | h0
    · rw [h0]
      norm_num
    · obtain ⟨t, ht⟩ : ∃ t, r - m = t + 1 := ⟨r - m - 1, by omega⟩
      rw [ht, pow_succ]
      have hassoc : 5 * (2 ^ t * 2) = 5 * 2 ^ t * 2 := by ring
      rw [hassoc]
      have heven : 5 * 2 ^ t * 2 % 2 ^ 64 % 2 = 0 := by
        rw [Nat.mod_mod_of_dvd _ (by norm_num)]
        omega
      intro hc
      rw [hc] at heven
      norm_num at heven
  · have he : (2:Nat) ^ m = 2 ^ (m - r) * 2 ^ r := by
      rw [← pow_add]
      congr 1
      omega
    have hdiv : 5 * 2 ^ r / 2 ^ m = 5 / 2 ^ (m - r) := by
      rw [he, Nat.mul_comm (2 ^ (m - r)) (2 ^ r), ← Nat.div_div_eq_div_mul,
        Nat.mul_div_cancel _ (Nat.pos_pow_of_pos r (by norm_num))]
    rw [hdiv]
    have h5 : 5 / 2 ^ (m - r) ≤ 5 := Nat.div_le_self _ _
    have : 5 / 2 ^ (m - r) % 2 ^ 64 = 5 / 2 ^ (m - r) :=
      Nat.mod_eq_of_lt (by omega)
    omega

/-- No base-`2^64` digit of `10 * 2^k` is `2^64 - 1`, so subtracting a
well-formed representation of such a number never hits the wrapping
borrow of `Sub`. -/
theorem stoDigits_ne (sto : Limbs) (hw : WFL sto) (k : Nat)
    (hval : valL sto = 10 * 2 ^ k) : ∀ i, getL sto i ≠ B - 1 := by
  intro i
  rw [getL_eq_digit sto hw i, hval]
  have h10 : 10 * 2 ^ k = 5 * 2 ^ (k + 1) := by
    rw [pow_succ]
    ring
  have hBi : B ^ i = 2 ^ (64 * i) := by
    rw [B, ← pow_mul]
  have hB : B = 2 ^ 64 := rfl
  rw [h10, hBi, hB]
  exact five_pow_digit_ne (k + 1) (64 * i)

theorem getL_zero_of_small (v : Limbs) (h : valL v < B) :
    getL v 0 = valL v := by
  cases v with
  | nil => simp [getL, valL]
  | cons x r =>
    simp only [getL_cons_zero, valL] at h ⊢
    have hr : valL r = 0 := by
      by_cases h0 : valL r = 0
      · exact h0
      · exfalso
        have : B ≤ B * valL r := Nat.le_mul_of_pos_right B (by omega)
        omega
    rw [hr]
    omega

theorem innerUpF_mono : ∀ n m s t, innerUpF n s = some t → n ≤ m →
    innerUpF m s = some t := by
  intro n
  induction n with
  | zero => intro m s t h; exact absurd h (by rw [innerUpF]; simp)
  | succ k ih =>
    intro m s t h hle
    match m, hle with
    | m' + 1, hle =>
      rw [innerUpF] at h ⊢
      split at h
      · rename_i hcond
        rw [if_pos hcond]
        exact ih m' _ t h (by omega)
      · rename_i hcond
        rw [if_neg hcond]
        exact h

theorem innerDownF_mono : ∀ n m s t, innerDownF n s = some t → n ≤ m →
    innerDownF m s = some t := by
  intro n
  induction n with
  | zero => intro m s t h; exact absurd h (by rw [innerDownF]; simp)
  | succ k ih =>
    intro m s t h hle
    match m, hle with
    | m' + 1, hle =>
      rw [innerDownF] at h ⊢
      split at h
      · rename_i hcond
        rw [if_pos hcond]
        exact ih m' _ t h (by omega)
      · rename_i hcond
        rw [if_neg hcond]
        exact h

theorem outerF_mono (b : Limbs) : ∀ n m s t, outerF b n s = some t →
    n ≤ m → outerF b m s = some t := by
  intro n
  induction n with
  | zero => intro m s t h; exact absurd h (by rw [outerF]; simp)
  | succ k ih =>
    intro m s t h hle
    match m, hle with
    | m' + 1, hle =>
      by_cases hcond : cmpL s.rem b = .lt
      · rw [outerF, if_pos hcond] at h
        rw [outerF, if_pos hcond]
        exact h
      · rw [outerF, if_neg hcond] at h
        rw [outerF, if_neg hcond]
        rcases hup : innerUpF (k + 1) s with _ | s1
        · rw [hup] at h
          exact Option.noConfusion h
        · rw [hup] at h
          rw [innerUpF_mono (k + 1) (m' + 1) s s1 hup (by omega)]
          have h1 : (match innerDownF (k + 1) s1 with
              | none => none
              | some s2 =>
                match subF s2.rem s2.sto with
                | Except.error e => some (Except.error e)
                | Except.ok rem2 =>
                  outerF b k ⟨rem2, addL s2.quot s2.step, s2.step, s2.sto⟩) =
              some t := h
          show (match innerDownF (m' + 1) s1 with
              | none => none
              | some s2 =>
                match subF s2.rem s2.sto with
                | Except.error e => some (Except.error e)
                | Except.ok rem2 =>
                  outerF b m' ⟨rem2, addL s2.quot s2.step, s2.step, s2.sto⟩) =
              some t
          rcases hdown : innerDownF (k + 1) s1 with _ | s2
          · rw [hdown] at h1
            exact Option.noConfusion h1
          · rw [hdown] at h1
            rw [innerDownF_mono (k + 1) (m' + 1) s1 s2 hdown (by omega)]
            have h2 : (match subF s2.rem s2.sto with
                | Except.error e => some (Except.error e)
                | Except.ok rem2 =>
                  outerF b k ⟨rem2, addL s2.quot s2.step, s2.step, s2.sto⟩) =
                some t := h1
            show (match subF s2.rem s2.sto with
                | Except.error e => some (Except.error e)
                | Except.ok rem2 =>
                  outerF b m' ⟨rem2, addL s2.quot s2.step, s2.step, s2.sto⟩) =
                some t
            rcases hsub : subF s2.rem s2.sto with e | rem2
            · rw [hsub] at h2
              exact h2
            · rw [hsub] at h2
              exact ih m' _ t h2 (by omega)

theorem divmodF_mono (a b : Limbs) : ∀ n m t, divmodF n a b = some t →
    n ≤ m → divmodF m a b = some t := by
  intro n m t h hle
  unfold divmodF at h ⊢
  by_cases h1 : isZeroL b = true
  · rw [if_pos h1] at h ⊢
    exact h
  · rw [if_neg h1] at h ⊢
    by_cases h2 : cmpL b [1] = .eq
    · rw [if_pos h2] at h ⊢
      exact h
    · rw [if_neg h2] at h ⊢
      by_cases h3 : isZeroL a = true
      · rw [if_pos h3] at h ⊢
        exact h
      · rw [if_neg h3] at h ⊢
        by_cases h4 : cmpL a b = .lt
        · rw [if_pos h4] at h ⊢
          exact h
        · rw [if_neg h4] at h ⊢
          by_cases h5 : cmpL a b = .eq
          · rw [if_pos h5] at h ⊢
            exact h
          · rw [if_neg h5] at h ⊢
            exact outerF_mono b n m _ t h hle

/-- Invariant of the `divmod` loop for the divisor 10 (reachable because
the initial product `1 * [10] = [10]` is safe and the shifts preserve
safety): everything is well formed, the top limbs of `step_size` and of
the product stay below `2^63` (so `lshift` doubles them exactly),
`step_size` is the power of two `2^k`, the product is `10 * 2^k`, and
the division law accumulates. -/
structure DInv (a0 k : Nat) (s : DivSt) : Prop where
  hwr : WFL s.rem
  hwq : WFL s.quot
  hws : WFL s.step
  hwo : WFL s.sto
  hss : topLimbD s.step 0 < 2 ^ 63
  hso : topLimbD s.sto 0 < 2 ^ 63
  hvs : valL s.step = 2 ^ k
  hvo : valL s.sto = 10 * 2 ^ k
  hlaw : valL s.quot * 10 + valL s.rem = a0

theorem innerUpTen : ∀ m k s a0, DInv a0 k s →
    valL s.rem - valL s.sto ≤ m →
    ∃ n k2 s2, innerUpF n s = some s2 ∧ DInv a0 k2 s2 ∧
      s2.rem = s.rem ∧ s2.quot = s.quot := by
  intro m
  induction m with
  | zero =>
    intro k s a0 hinv hm
    refine ⟨1, k, s, ?_, hinv, rfl, rfl⟩
    rw [innerUpF, if_neg ?_]
    intro hc
    have := (cmpL_lt_iff hinv.hwo hinv.hwr).mp hc
    omega
  | succ m' ih =>
    intro k s a0 hinv hm
    by_cases hcond : cmpL s.sto s.rem = .lt
    · have hlt : valL s.sto < valL s.rem := (cmpL_lt_iff hinv.hwo hinv.hwr).mp hcond
      have hstep2 : valL (lshiftL s.step) = 2 ^ (k + 1) := by
        rw [lshiftL_val s.step hinv.hws hinv.hss, hinv.hvs, pow_succ]
        ring
      have hsto2 : valL (lshiftL s.sto) = 10 * 2 ^ (k + 1) := by
        rw [lshiftL_val s.sto hinv.hwo hinv.hso, hinv.hvo, pow_succ]
        ring
      have hinv2 : DInv a0 (k + 1)
          ⟨s.rem, s.quot, lshiftL s.step, lshiftL s.sto⟩ :=
        ⟨hinv.hwr, hinv.hwq, lshiftL_WFL _ hinv.hws, lshiftL_WFL _ hinv.hwo,
          lshiftL_safe _ hinv.hws hinv.hss, lshiftL_safe _ hinv.hwo hinv.hso,
          hstep2, hsto2, hinv.hlaw⟩
      have hpk : (1:Nat) ≤ 2 ^ k := Nat.one_le_two_pow
      have hvo := hinv.hvo
      have hm2 : valL s.rem - valL (lshiftL s.sto) ≤ m' := by
        rw [hsto2]
        have he : 10 * 2 ^ (k + 1) = 2 * (10 * 2 ^ k) := by
          rw [pow_succ]
          ring
        rw [he]
        omega
      obtain ⟨n, k2, s2, hrun, hinv3, hrem, hq⟩ := ih (k + 1) _ a0 hinv2 hm2
      refine ⟨n + 1, k2, s2, ?_, hinv3, hrem, hq⟩
      rw [innerUpF, if_pos hcond]
      exact hrun
    · refine ⟨1, k, s, ?_, hinv, rfl, rfl⟩
      rw [innerUpF, if_neg hcond]

theorem innerDownTen : ∀ k s a0, DInv a0 k s → 10 ≤ valL s.rem →
    ∃ n k2 s2, innerDownF n s = some s2 ∧ DInv a0 k2 s2 ∧
      s2.rem = s.rem ∧ s2.quot = s.quot ∧ valL s2.sto ≤ valL s.rem := by
  intro k
  induction k with
  | zero =>
    intro s a0 hinv hrem
    have hv10 : valL s.sto = 10 := by
      have := hinv.hvo
      rwa [pow_zero, Nat.mul_one] at this
    refine ⟨1, 0, s, ?_, hinv, rfl, rfl, by omega⟩
    rw [innerDownF, if_neg ?_]
    intro hc
    have := (cmpL_gt_iff hinv.hwo hinv.hwr).mp hc
    omega
  | succ k' ih =>
    intro s a0 hinv hrem
    by_cases hcond : cmpL s.sto s.rem = .gt
    · have hstep2 : valL (rshiftL s.step) = 2 ^ k' := by
        rw [rshiftL_val _ hinv.hws, hinv.hvs, pow_succ,
          Nat.mul_div_cancel _ (by norm_num : (0:Nat) < 2)]
      have hsto2 : valL (rshiftL s.sto) = 10 * 2 ^ k' := by
        rw [rshiftL_val _ hinv.hwo, hinv.hvo, pow_succ, ← Nat.mul_assoc,
          Nat.mul_div_cancel _ (by norm_num : (0:Nat) < 2)]
      have hinv2 : DInv a0 k'
          ⟨s.rem, s.quot, rshiftL s.step, rshiftL s.sto⟩ :=
        ⟨hinv.hwr, hinv.hwq, rshiftL_WFL _ hinv.hws, rshiftL_WFL _ hinv.hwo,
          rshiftL_safe _ hinv.hws, rshiftL_safe _ hinv.hwo,
          hstep2, hsto2, hinv.hlaw⟩
      obtain ⟨n, k2, s2, hrun, hinv3, hrem2, hq2, hle2⟩ := ih _ a0 hinv2 hrem
      refine ⟨n + 1, k2, s2, ?_, hinv3, hrem2, hq2, hle2⟩
      rw [innerDownF, if_pos hcond]
      exact hrun
    · refine ⟨1, k' + 1, s, ?_, hinv, rfl, rfl,
        (cmpL_ne_gt_iff hinv.hwo hinv.hwr).mp hcond⟩
      rw [innerDownF, if_neg hcond]

theorem outerF_step (b : Limbs) (n : Nat) (s s1 s2 : DivSt) (rem2 : Limbs)
    (hcond : ¬ cmpL s.rem b = .lt)
    (h1 : innerUpF (n + 1) s = some s1)
    (h2 : innerDownF (n + 1) s1 = some s2)
    (h3 : subF s2.rem s2.sto = .ok rem2) :
    outerF b (n + 1) s =
      outerF b n ⟨rem2, addL s2.quot s2.step, s2.step, s2.sto⟩ := by
  rw [outerF, if_neg hcond]
  simp only [h1, h2, h3]

theorem outerTen : ∀ m a0 k s, DInv a0 k s → valL s.rem ≤ m →
    ∃ n q r, outerF [10] n s = some (.ok (q, r)) ∧
      valL q * 10 + valL r = a0 ∧ valL r < 10 ∧ WFL q ∧ WFL r := by
  intro m
  induction m using Nat.strong_induction_on with
  | _ m ih =>
    intro a0 k s hinv hm
    have hw10 : WFL [10] := by decide
    have hv10 : valL [10] = 10 := by norm_num [valL]
    by_cases hrem : cmpL s.rem [10] = .lt
    · refine ⟨1, s.quot, s.rem, ?_, hinv.hlaw, ?_, hinv.hwq, hinv.hwr⟩
      · rw [outerF, if_pos hrem]
      · have := (cmpL_lt_iff hinv.hwr hw10).mp hrem
        omega
    · have h10 : 10 ≤ valL s.rem := by
        have := (cmpL_ne_lt_iff hinv.hwr hw10).mp hrem
        omega
      obtain ⟨n1, k1, s1, hrun1, hinv1, hrem1, hq1⟩ :=
        innerUpTen (valL s.rem - valL s.sto) k s a0 hinv (le_refl _)
      obtain ⟨n2, k2, s2, hrun2, hinv2, hrem2, hq2, hle2⟩ :=
        innerDownTen k1 s1 a0 hinv1 (by rw [hrem1]; exact h10)
      have hle2' : valL s2.sto ≤ valL s2.rem := by
        rw [hrem2]
        exact hle2
      have hbad := stoDigits_ne s2.sto hinv2.hwo k2 hinv2.hvo
      obtain ⟨r2, hsub, hwr2, hvalr2⟩ :=
        subF_ok s2.rem s2.sto hinv2.hwr hinv2.hwo hbad hle2'
      have hq3 : valL (addL s2.quot s2.step) = valL s2.quot + 2 ^ k2 := by
        rw [addL_val _ _ hinv2.hwq hinv2.hws, hinv2.hvs]
      have hpk : (1:Nat) ≤ 2 ^ k2 := Nat.one_le_two_pow
      have hs2rem : s2.rem = s.rem := by rw [hrem2, hrem1]
      have hinv3 : DInv a0 k2 ⟨r2, addL s2.quot s2.step, s2.step, s2.sto⟩ := by
        refine ⟨hwr2, addL_WFL _ _ hinv2.hwq hinv2.hws, hinv2.hws, hinv2.hwo,
          hinv2.hss, hinv2.hso, hinv2.hvs, hinv2.hvo, ?_⟩
        have hlaw2 := hinv2.hlaw
        have hvo2 := hinv2.hvo
        show valL (addL s2.quot s2.step) * 10 + valL r2 = a0
        rw [hq3, hvalr2, hvo2]
        omega
      have hdec : valL r2 < valL s.rem := by
        rw [hvalr2, hs2rem, hinv2.hvo]
        omega
      obtain ⟨n3, q, r, hrun3, hlawf, hrf, hwqf, hwrf⟩ :=
        ih (valL r2) (by omega) a0 k2 _ hinv3 (le_refl _)
      refine ⟨max (max n1 n2) n3 + 1, q, r, ?_, hlawf, hrf, hwqf, hwrf⟩
      rw [outerF_step [10] (max (max n1 n2) n3) s s1 s2 r2 hrem
        (innerUpF_mono n1 _ s s1 hrun1 (by omega))
        (innerDownF_mono n2 _ s1 s2 hrun2 (by omega)) hsub]
      exact outerF_mono [10] n3 _ _ _ hrun3 (by omega)

/-- Conditional correctness of `divmod` for the divisor 10 (a safe
divisor: its initial product representation `[10]` has a small top limb,
so no left shift ever drops a bit and no subtraction limb is
`2^64 - 1`): with enough fuel it returns a quotient and remainder that
satisfy the division law. -/
theorem divmodTen (a : Limbs) (ha : WFL a) :
    ∃ n q r, divmodF n a [10] = some (.ok (q, r)) ∧
      valL q * 10 + valL r = valL a ∧ valL r < 10 ∧ WFL q ∧ WFL r := by
  have hw10 : WFL [10] := by decide
  have hv10 : valL [10] = 10 := by norm_num [valL]
  have hw0 : WFL [0] := by decide
  have hw1 : WFL [1] := by decide
  by_cases hza : isZeroL a = true
  · refine ⟨1, [0], [0], ?_, ?_, by norm_num [valL], hw0, hw0⟩
    · unfold divmodF
      rw [if_neg (by decide), if_neg (by decide), if_pos hza]
    · have := (isZeroL_iff a).mp hza
      simp [valL]
      omega
  · rcases hord : cmpL a [10] with _ | _ | _
    · refine ⟨1, [0], a, ?_, ?_, ?_, hw0, ha⟩
      · unfold divmodF
        rw [if_neg (by decide), if_neg (by decide), if_neg hza, if_pos hord]
      · norm_num [valL]
      · have := (cmpL_lt_iff ha hw10).mp hord
        omega
    · refine ⟨1, [1], [0], ?_, ?_, by norm_num [valL], hw1, hw0⟩
      · unfold divmodF
        rw [if_neg (by decide), if_neg (by decide), if_neg hza,
          if_neg (by rw [hord]; intro hc; exact Ordering.noConfusion hc),
          if_pos hord]
      · have := (cmpL_eq_iff ha hw10).mp hord
        rw [this, hv10]
        norm_num [valL]
    · have hinv0 : DInv (valL a) 0 ⟨a, [0], [1], [10]⟩ := by
        refine ⟨ha, hw0, hw1, hw10,
          (by decide : topLimbD [1] 0 < 2 ^ 63),
          (by decide : topLimbD [10] 0 < 2 ^ 63), ?_, ?_, ?_⟩
        · norm_num [valL]
        · norm_num [valL]
        · norm_num [valL]
      obtain ⟨n, q, r, hrun, hlaw, hr, hwq, hwr⟩ :=
        outerTen (valL a) (valL a) 0 ⟨a, [0], [1], [10]⟩ hinv0 (le_refl _)
      refine ⟨n, q, r, ?_, hlaw, hr, hwq, hwr⟩
      unfold divmodF
      rw [if_neg (by decide), if_neg (by decide), if_neg hza,
        if_neg (by rw [hord]; intro hc; exact Ordering.noConfusion hc),
        if_neg (by rw [hord]; intro hc; exact Ordering.noConfusion hc)]
      rw [show mulL [1] [10] = [10] from rfl]
      exact hrun

theorem decDigitsGo_irrel : ∀ n f g, n < f → n < g →
    decDigitsGo f n = decDigitsGo g n := by
  intro n
  induction n using Nat.strong_induction_on with
  | _ n ih =>
    intro f g hf hg
    match f, g, hf, hg with
    | f' + 1, g' + 1, hf, hg =>
      rw [decDigitsGo, decDigitsGo]
      by_cases h : n < 10
      · rw [if_pos h, if_pos h]
      · rw [if_neg h, if_neg h]
        have hlt : n / 10 < n := Nat.div_lt_self (by omega) (by norm_num)
        rw [ih (n / 10) hlt f' g' (by omega) (by omega)]

theorem decDigits_small (n : Nat) (h : n < 10) : decDigits n = [n] := by
  unfold decDigits
  rw [decDigitsGo, if_pos h]

theorem decDigits_step (n : Nat) (h : 10 ≤ n) :
    decDigits n = decDigits (n / 10) ++ [n % 10] := by
  unfold decDigits
  rw [decDigitsGo, if_neg (by omega)]
  congr 1
  exact decDigitsGo_irrel (n / 10) n (n / 10 + 1)
    (Nat.div_lt_self (by omega) (by norm_num)) (by omega)

theorem decDigits_ne_nil (n : Nat) : decDigits n ≠ [] := by
  by_cases h : n < 10
  · rw [decDigits_small n h]
    simp
  · rw [decDigits_step n (by omega)]
    simp

theorem decDigits_head : ∀ n, 1 ≤ n → (decDigits n).headD 0 ≠ 0 := by
  intro n
  induction n using Nat.strong_induction_on with
  | _ n ih =>
    intro h
    by_cases hs : n < 10
    · rw [decDigits_small n hs]
      simpa using (by omega : ¬ n = 0)
    · rw [decDigits_step n (by omega)]
      have hne := decDigits_ne_nil (n / 10)
      have hih := ih (n / 10) (Nat.div_lt_self (by omega) (by norm_num))
        (by omega)
      cases hd : decDigits (n / 10) with
      | nil => exact absurd hd hne
      | cons y ys =>
        rw [hd] at hih
        simpa using hih

theorem decValue_append_digit (l : List Nat) (d : Nat) :
    decValue (l ++ [d]) = decValue l * 10 + d := by
  unfold decValue
  rw [List.foldl_append]
  rfl

theorem decValue_decDigits : ∀ n, decValue (decDigits n) = n := by
  intro n
  induction n using Nat.strong_induction_on with
  | _ n ih =>
    by_cases hs : n < 10
    · rw [decDigits_small n hs]
      unfold decValue
      simp
    · rw [decDigits_step n (by omega), decValue_append_digit,
        ih (n / 10) (Nat.div_lt_self (by omega) (by norm_num))]
      omega

theorem decDigits_lt : ∀ n, ∀ d ∈ decDigits n, d < 10 := by
  intro n
  induction n using Nat.strong_induction_on with
  | _ n ih =>
    intro d hd
    by_cases hs : n < 10
    · rw [decDigits_small n hs] at hd
      rw [List.mem_singleton.mp hd]
      exact hs
    · rw [decDigits_step n (by omega)] at hd
      rcases List.mem_append.mp hd with h | h
      · exact ih (n / 10) (Nat.div_lt_self (by omega) (by norm_num)) d h
      · rw [List.mem_singleton.mp h]
        omega

theorem digitLoopF_mono : ∀ n m num acc t, digitLoopF n num acc = some t →
    n ≤ m → digitLoopF m num acc = some t := by
  intro n
  induction n with
  | zero => intro m num acc t h; exact absurd h (by rw [digitLoopF]; simp)
  | succ k ih =>
    intro m num acc t h hle
    match m, hle with
    | m' + 1, hle =>
      rw [digitLoopF] at h ⊢
      by_cases hz : isZeroL num = true
      · rw [if_pos hz] at h ⊢
        exact h
      · rw [if_neg hz] at h ⊢
        rcases hdiv : divmodF (k + 1) num [10] with _ | res
        · rw [hdiv] at h
          exact Option.noConfusion h
        · rw [hdiv] at h
          rw [divmodF_mono num [10] (k + 1) (m' + 1) res hdiv (by omega)]
          rcases res with e | qr
          · exact Option.noConfusion h
          · exact ih m' qr.1 _ t h (by omega)

theorem digitLoopTen : ∀ m num acc, WFL num → 1 ≤ valL num →
    valL num ≤ m →
    ∃ f, digitLoopF f num acc = some (String.mk
      (((decDigits (valL num)).map fun d => Char.ofNat (48 + d)) ++
        acc.data)) := by
  intro m
  induction m using Nat.strong_induction_on with
  | _ m ih =>
    intro num acc hwf h1 hm
    obtain ⟨nd, q, r, hdiv, hlaw, hrlt, hwq, hwr⟩ := divmodTen num hwf
    have hq : valL q = valL num / 10 := by omega
    have hr : valL r = valL num % 10 := by omega
    have hB10 : (10:Nat) < B := by norm_num [B]
    have hg0 : getL r 0 = valL r := getL_zero_of_small r (by omega)
    have hznum : isZeroL num = false := by
      cases hz : isZeroL num
      · rfl
      · exfalso
        have := (isZeroL_iff num).mp hz
        omega
    by_cases hsmall : valL num < 10
    · have hq0 : valL q = 0 := by omega
      have hzq : isZeroL q = true := (isZeroL_iff q).mpr hq0
      have hchar2 : (getL r 0 % 256 + 48) % 256 = 48 + valL num := by
        rw [hg0, hr]
        omega
      refine ⟨max nd 1 + 1, ?_⟩
      rw [digitLoopF, if_neg (by rw [hznum]; simp),
        divmodF_mono num [10] nd (max nd 1 + 1) _ hdiv (by omega)]
      show digitLoopF (max nd 1) q
        (String.mk (Char.ofNat ((getL r 0 % 256 + 48) % 256) :: acc.data)) =
        some (String.mk
          (((decDigits (valL num)).map fun d => Char.ofNat (48 + d)) ++
            acc.data))
      have hstep1 : digitLoopF 1 q
          (String.mk (Char.ofNat ((getL r 0 % 256 + 48) % 256) :: acc.data)) =
          some (String.mk
            (Char.ofNat ((getL r 0 % 256 + 48) % 256) :: acc.data)) := by
        rw [digitLoopF, if_pos hzq]
      rw [digitLoopF_mono 1 (max nd 1) q _ _ hstep1 (by omega)]
      rw [decDigits_small (valL num) hsmall, hchar2]
      simp
    · have h10le : 10 ≤ valL num := by omega
      have hq1 : 1 ≤ valL q := by omega
      have hchar : (getL r 0 % 256 + 48) % 256 = 48 + valL num % 10 := by
        rw [hg0, hr]
        omega
      obtain ⟨f2, hrec⟩ := ih (valL q) (by omega) q
        (String.mk (Char.ofNat ((getL r 0 % 256 + 48) % 256) :: acc.data))
        hwq hq1 (le_refl _)
      refine ⟨max nd f2 + 1, ?_⟩
      rw [digitLoopF, if_neg (by rw [hznum]; simp),
        divmodF_mono num [10] nd (max nd f2 + 1) _ hdiv (by omega)]
      show digitLoopF (max nd f2) q
        (String.mk (Char.ofNat ((getL r 0 % 256 + 48) % 256) :: acc.data)) =
        some (String.mk
          (((decDigits (valL num)).map fun d => Char.ofNat (48 + d)) ++
            acc.data))
      rw [digitLoopF_mono f2 (max nd f2) q _ _ hrec (by omega)]
      congr 1
      rw [hq, decDigits_step (valL num) h10le, hchar]
      simp

/-- Correct decimal formatting (the heart of claim 9): for every
well-formed value there is enough fuel for `Display for BigUint` to
produce exactly the canonical decimal string of the logical value —
zero renders as the string 0, a nonzero value renders with digits below
10, a nonzero leading digit, and digit-string value equal to the
logical value. -/
theorem claim9_format_correct (v : Limbs) (hv : WFL v) :
    ∃ fuel s, formatF fuel v = some s ∧ s = natDecimal (valL v) ∧
      (valL v = 0 → s = "0") ∧
      (valL v ≠ 0 → (decDigits (valL v)).headD 0 ≠ 0) ∧
      decValue (decDigits (valL v)) = valL v ∧
      ∀ d ∈ decDigits (valL v), d < 10 := by
  have hprops : decValue (decDigits (valL v)) = valL v ∧
      (∀ d ∈ decDigits (valL v), d < 10) :=
    ⟨decValue_decDigits (valL v), decDigits_lt (valL v)⟩
  by_cases hz : isZeroL v = true
  · have hv0 : valL v = 0 := (isZeroL_iff v).mp hz
    refine ⟨1, "0", ?_, ?_, fun _ => rfl, fun hc => absurd hv0 hc, ?_, ?_⟩
    · unfold formatF
      rw [if_pos hz]
    · rw [hv0]
      decide
    · exact hv0 ▸ hprops.1
    · exact hv0 ▸ hprops.2
  · have hvpos : valL v ≠ 0 := by
      intro hc
      rw [(isZeroL_iff v).mpr hc] at hz
      exact hz rfl
    by_cases hlen : v.length = 1
    · obtain ⟨x, hx⟩ := List.length_eq_one.mp hlen
      refine ⟨1, natDecimal (getL v 0), ?_, ?_,
        fun hc => absurd hc hvpos, fun _ => decDigits_head _ (by omega),
        hprops.1, hprops.2⟩
      · unfold formatF
        rw [if_neg hz, if_pos hlen]
      · subst hx
        rw [getL_cons_zero]
        congr 1
    · obtain ⟨f, hloop⟩ := digitLoopTen (valL v) v "" hv (by omega)
        (le_refl _)
      refine ⟨f, natDecimal (valL v), ?_, rfl,
        fun hc => absurd hc hvpos, fun _ => decDigits_head _ (by omega),
        hprops.1, hprops.2⟩
      unfold formatF
      rw [if_neg hz, if_neg hlen, hloop]
      congr 1
      unfold natDecimal
      congr 1
      simp

theorem claim9_format_correct_witness :
    WFL [0] ∧
    (∃ fuel s, formatF fuel [0] = some s ∧ s = natDecimal (valL [0]) ∧
      (valL [0] = 0 → s = "0") ∧
      (valL [0] ≠ 0 → (decDigits (valL [0])).headD 0 ≠ 0) ∧
      decValue (decDigits (valL [0])) = valL [0] ∧
      ∀ d ∈ decDigits (valL [0]), d < 10) :=
  ⟨by decide, claim9_format_correct [0] (by decide)⟩
